import Mathlib

/-!
Shallow embedding of the search engine in `src/js/search-index.js`
(class `SearchIndex`): tokenizer, inverted index, build/progress tracking,
TF-IDF exact search, Levenshtein fuzzy fallback and suggestions.

JS `Map`s are modelled as insertion-ordered association lists with unique
keys (`Map.set` on a fresh key appends at the end, matching JS iteration
order); JS numbers are modelled as `ℕ`, `ℚ` or `ℝ` as appropriate
(`Math.log` becomes `Real.log`); a JS value that may be `undefined` is an
`Option`.
-/

/-- Document metadata stored in `this.documents` by `indexDocument`
(the `content` payload is kept out of the record: it is never read back by
any of the operations verified here). -/
structure DocMetadata where
  id : String
  title : String
  sectionId : String
  sectionLabel : String
  groupId : Option String
  groupLabel : Option String
  path : String
  deriving DecidableEq, Repr

/-- One entry of a term's posting list (`this.index.get(term)` elements),
as created by `addTerm`. -/
structure Posting where
  docId : String
  type : String
  weight : Nat
  metadata : DocMetadata
  positions : List Nat
  count : Nat
  sectionIndex : Option Nat
  itemIndex : Option Nat
  deriving DecidableEq, Repr

/-- A code tab of a content section (`section.tabs` elements). -/
structure CodeTab where
  code : Option String
  label : Option String
  deriving DecidableEq, Repr

/-- One structured content block of a document (`docData.sections`
elements).  A list item is `some s` when it is a string (the
`typeof item === 'string'` check) and `none` otherwise. -/
structure ContentSection where
  title : Option String
  content : Option String
  code : Option String
  tabs : Option (List CodeTab)
  items : Option (List (Option String))
  deriving DecidableEq, Repr

/-- Loaded document content (`docData`); `sections` and `content` are the
two alternative field names read by `indexDocumentContent`
(`docData.sections || docData.content || []`). -/
structure DocData where
  title : Option String
  sections : Option (List ContentSection)
  content : Option (List ContentSection)
  deriving DecidableEq, Repr

/-- The mutable state of a `SearchIndex` instance. -/
structure SearchIndexState where
  index : List (String × List Posting)
  documents : List (String × DocMetadata)
  isIndexed : Bool
  indexingProgress : Nat
  totalDocuments : Nat

/-- JS `.toLowerCase()`, modelled character-wise. -/
def strToLower (s : String) : String := String.mk (s.data.map Char.toLower)

/-- JS `.trim()`: drop leading and trailing whitespace. -/
def strTrim (s : String) : String :=
  String.mk (((s.data.dropWhile Char.isWhitespace).reverse.dropWhile
    Char.isWhitespace).reverse)

/-- Whether `cs` starts with `pat` (JS `startsWith`, character lists). -/
def listStarts : List Char → List Char → Bool
  | _, [] => true
  | [], _ :: _ => false
  | c :: cs, p :: ps => c = p && listStarts cs ps

/-- JS `s.startsWith(pat)`. -/
def strStarts (s pat : String) : Bool := listStarts s.data pat.data

/-- Whether `pat` occurs inside `s` starting at some position. -/
def inclAux (p : List Char) : List Char → Bool
  | [] => listStarts [] p
  | c :: cs => listStarts (c :: cs) p || inclAux p cs

/-- JS `s.includes(pat)`. -/
def strIncludes (s pat : String) : Bool := inclAux pat.data s.data

/-- Split on whitespace, one split point per whitespace character (runs of
whitespace produce empty words, dropped by `tokenize`'s filter exactly as
with the JS `split(/\s+/)`). -/
def splitWsAux : List Char → List Char → List String
  | [], acc => [String.mk acc.reverse]
  | c :: cs, acc =>
      if c.isWhitespace then String.mk acc.reverse :: splitWsAux cs []
      else splitWsAux cs (c :: acc)

/-- Split a character list into whitespace-separated words. -/
def splitWs (cs : List Char) : List String := splitWsAux cs []

/-- JS `\w` character class (ASCII word character). -/
def isWordChar (c : Char) : Bool := c.isAlphanum || c = '_'

/-- One character of `.replace(/[^\w\s]/g, ' ')`. -/
def cleanChar (c : Char) : Char :=
  if isWordChar c || c.isWhitespace then c else ' '

/-- Character-level model of `.replace(/<[^>]*>/g, ' ')`: the `Bool` flag
records being inside a tag match.  A `<` opens a match only when a later
`>` exists (otherwise the regex does not match at that position and the
character is kept literally); the whole `<...>` run is replaced by one
space emitted at the closing `>`. -/
def stripTagsAux : Bool → List Char → List Char
  | _, [] => []
  | true, c :: cs =>
      if c = '>' then ' ' :: stripTagsAux false cs else stripTagsAux true cs
  | false, c :: cs =>
      if c = '<' && cs.contains '>' then stripTagsAux true cs
      else c :: stripTagsAux false cs

/-- Strip HTML tags, replacing each tag by a single space. -/
def stripTags (cs : List Char) : List Char := stripTagsAux false cs

/-- `tokenize(text)`: strip HTML tags, lowercase, replace non-word
characters by spaces, split on whitespace and drop empty words. -/
def tokenize (text : String) : List String :=
  let cleanText := String.mk (stripTags text.data)
  let normalized := String.mk ((strToLower cleanText).data.map cleanChar)
  (splitWs normalized.data).filter (fun word => 0 < word.length)

/-- The existing-posting test of `addTerm`:
`m.docId === docId && m.type === type && m.sectionIndex === sectionIndex
&& m.itemIndex === itemIndex`. -/
def postingKeyMatches (p : Posting) (docId ty : String) (si ii : Option Nat) : Bool :=
  p.docId == docId && p.type == ty && p.sectionIndex == si && p.itemIndex == ii

/-- Update a posting list for one token occurrence: the first posting
matching the key gets `positions.push(position)` and `count++`; if none
matches, a fresh posting (`count = 1`) is pushed at the end. -/
def bumpList (docId ty : String) (w : Nat) (md : DocMetadata) (si ii : Option Nat)
    (pos : Nat) : List Posting → List Posting
  | [] => [{ docId := docId, type := ty, weight := w, metadata := md,
             positions := [pos], count := 1, sectionIndex := si, itemIndex := ii }]
  | p :: ps =>
      if postingKeyMatches p docId ty si ii then
        { p with positions := p.positions ++ [pos], count := p.count + 1 } :: ps
      else p :: bumpList docId ty w md si ii pos ps

/-- Apply `bumpList` to the posting list stored under `term`, leaving all
other terms unchanged (in-place mutation of `this.index.get(term)`). -/
def bumpTerm (term docId ty : String) (w : Nat) (md : DocMetadata) (si ii : Option Nat)
    (pos : Nat) : List (String × List Posting) → List (String × List Posting)
  | [] => []
  | (t, ps) :: rest =>
      if t = term then (t, bumpList docId ty w md si ii pos ps) :: rest
      else (t, ps) :: bumpTerm term docId ty w md si ii pos rest

/-- The body of the `tokens.forEach` loop in `addTerm`: skip tokens
shorter than 2 characters, lowercase, create the term's (empty) posting
list if absent, then record the occurrence. -/
def addToken (idx : List (String × List Posting)) (docId ty : String) (w : Nat)
    (md : DocMetadata) (si ii : Option Nat) (pos : Nat) (token : String) :
    List (String × List Posting) :=
  if token.length < 2 then idx
  else
    let term := strToLower token
    let idx1 := if (idx.lookup term).isSome then idx else idx ++ [(term, [])]
    bumpTerm term docId ty w md si ii pos idx1

/-- `addTerm(docId, text, type, weight, metadata, sectionIndex, itemIndex)`:
tokenize `text` and record every token with its position.  `text = none`
models the `if (!text || typeof text !== 'string') return` early exit. -/
def addTerm (idx : List (String × List Posting)) (docId : String) (text : Option String)
    (ty : String) (w : Nat) (md : DocMetadata) (si ii : Option Nat) :
    List (String × List Posting) :=
  match text with
  | none => idx
  | some t =>
      (tokenize t).enum.foldl
        (fun ix pt => addToken ix docId ty w md si ii pt.1 pt.2) idx

/-- The arguments of one `this.addTerm(...)` call. -/
structure AddTermOp where
  docId : String
  text : Option String
  type : String
  weight : Nat
  metadata : DocMetadata
  sectionIndex : Option Nat
  itemIndex : Option Nat

/-- Run one recorded `addTerm` call against an index. -/
def applyAddTerm (idx : List (String × List Posting)) (op : AddTermOp) :
    List (String × List Posting) :=
  addTerm idx op.docId op.text op.type op.weight op.metadata op.sectionIndex op.itemIndex

/-- Run a sequence of `addTerm` calls left to right. -/
def applyOps (ops : List AddTermOp) (idx : List (String × List Posting)) :
    List (String × List Posting) :=
  ops.foldl applyAddTerm idx

/-- The `addTerm` calls issued for one content section by
`indexDocumentContent`, in source order: section title (weight 8), section
content (3), code body (2), each tab's code body (2) and label (5), and
each string list item (4). -/
def sectionOps (docId : String) (md : DocMetadata) (si : Nat) (sec : ContentSection) :
    List AddTermOp :=
  [⟨docId, sec.title, "section-title", 8, md, some si, none⟩,
   ⟨docId, sec.content, "content", 3, md, some si, none⟩,
   ⟨docId, sec.code, "code", 2, md, some si, none⟩]
  ++ ((sec.tabs.getD []).enum.flatMap fun tt =>
       [⟨docId, tt.2.code, "code", 2, md, some si, some tt.1⟩,
        ⟨docId, tt.2.label, "code-label", 5, md, some si, some tt.1⟩])
  ++ ((sec.items.getD []).enum.flatMap fun it =>
       match it.2 with
       | some s => [⟨docId, some s, "list-item", 4, md, some si, some it.1⟩]
       | none => [])

/-- All `addTerm` calls issued by `indexDocumentContent(docId, docData,
metadata)`: the document title (weight 10) followed by every section's
calls. -/
def docContentOps (docId : String) (docData : DocData) (md : DocMetadata) :
    List AddTermOp :=
  ⟨docId, docData.title, "title", 10, md, none, none⟩
  :: ((docData.sections.orElse (fun _ => docData.content)).getD []).enum.flatMap
       (fun p => sectionOps docId md p.1 p.2)

/-- `indexDocumentContent`: run every `addTerm` call of a document against
the index. -/
def indexDocumentContent (docId : String) (docData : DocData) (md : DocMetadata)
    (idx : List (String × List Posting)) : List (String × List Posting) :=
  applyOps (docContentOps docId docData md) idx

/-- `this.index.get(term)`, defaulting to the empty posting list. -/
def indexGet (idx : List (String × List Posting)) (term : String) : List Posting :=
  (idx.lookup term).getD []

/-- `this.documents.set(docId, metadata)`: overwrite in place or append. -/
def docSet : List (String × DocMetadata) → String → DocMetadata →
    List (String × DocMetadata)
  | [], k, v => [(k, v)]
  | (k0, v0) :: rest, k, v =>
      if k0 = k then (k0, v) :: rest else (k0, v0) :: docSet rest k v

/-- `indexDocument`: `docData = none` models a document whose content could
not be loaded (the `if (!docData) return` exit and the `catch` branch) —
the state is returned unchanged and the progress counter is NOT
incremented.  On success the metadata is stored, the content is indexed
and `this.indexingProgress++` runs. -/
def indexDocument (st : SearchIndexState) (docId : String) (docData : Option DocData)
    (md : DocMetadata) : SearchIndexState :=
  match docData with
  | none => st
  | some d =>
      { st with
        documents := docSet st.documents docId md
        index := indexDocumentContent docId d md st.index
        indexingProgress := st.indexingProgress + 1 }

/-- One leaf document reference enumerated by the config walk, together
with the loader's result for it. -/
structure DocJob where
  docId : String
  docData : Option DocData
  metadata : DocMetadata

/-- `buildIndex`: start from a cleared state, set `totalDocuments` to the
number of enumerated documents, index every document in order, then set
`isIndexed = true`. -/
def buildIndex (docs : List DocJob) : SearchIndexState :=
  let st0 : SearchIndexState :=
    { index := [], documents := [], isIndexed := false,
      indexingProgress := 0, totalDocuments := docs.length }
  let st1 := docs.foldl (fun st j => indexDocument st j.docId j.docData j.metadata) st0
  { st1 with isIndexed := true }

/-- `getProgress()`: `1` when `totalDocuments === 0`, otherwise
`min(indexingProgress / totalDocuments, 1)`. -/
def getProgress (st : SearchIndexState) : ℚ :=
  if st.totalDocuments = 0 then 1
  else min ((st.indexingProgress : ℚ) / (st.totalDocuments : ℚ)) 1

/-- One cell of the Levenshtein DP matrix: keep the diagonal on equal
characters, otherwise `min(diag + 1, left + 1, up + 1)`. -/
def levCell (c2 c1 : Char) (diag left up : Nat) : Nat :=
  if c2 = c1 then diag else min (diag + 1) (min (left + 1) (up + 1))

/-- The inner `for j` loop of `levenshteinDistance`: compute the cells of
row `i` from column 1 on, consuming the previous row (whose head is the
diagonal neighbour and second element the upper neighbour) and carrying
the value just computed to the left. -/
def levRowAux (c2 : Char) : List Char → List Nat → Nat → List Nat
  | [], _, _ => []
  | _ :: _, [], _ => []
  | _ :: _, [_], _ => []
  | c1 :: cs, diag :: up :: restPrev, left =>
      let cur := levCell c2 c1 diag left up
      cur :: levRowAux c2 cs (up :: restPrev) cur

/-- Row `i` of the DP matrix: `matrix[i][0] = i` followed by the computed
cells. -/
def levRow (c2 : Char) (cs1 : List Char) (prevRow : List Nat) (i : Nat) : List Nat :=
  i :: levRowAux c2 cs1 prevRow i

/-- The outer `for i` loop: fold every character of `str2` into a new row,
returning the final row. -/
def levRows (cs1 : List Char) : List Char → List Nat → Nat → List Nat
  | [], prevRow, _ => prevRow
  | c2 :: rest, prevRow, i => levRows cs1 rest (levRow c2 cs1 prevRow i) (i + 1)

/-- `levenshteinDistance(str1, str2)`: row 0 is `0..len1`, rows are built
for each character of `str2`, and the answer is `matrix[len2][len1]` —
the last entry of the final row. -/
def levenshteinDistance (str1 str2 : String) : Nat :=
  (levRows str1.data str2.data (List.range (str1.data.length + 1)) 1).getLastD 0

/-- Reference recursive definition of unit-cost edit distance, used to
state and prove the correctness of the DP matrix. -/
def levRec : List Char → List Char → Nat
  | [], ys => ys.length
  | xs, [] => xs.length
  | x :: xs, y :: ys =>
      if x = y then levRec xs ys
      else 1 + min (levRec xs ys) (min (levRec (x :: xs) ys) (levRec xs (y :: ys)))
termination_by a b => a.length + b.length
decreasing_by all_goals (simp only [List.length_cons]; omega)

/-- The segment of a DP row from column `r1.length` on: entry `k` is the
edit distance between the processed prefix of `str2` (reversed: `r2`) and
the prefix of `str1` extending `r1.reverse` by the next `k` characters of
`cs`. -/
def rowFrom (r2 r1 : List Char) : List Char → List Nat
  | [] => [levRec r2 r1]
  | c :: cs => levRec r2 r1 :: rowFrom r2 (c :: r1) cs

/-- The number of distinct documents holding a posting for `term`
(`new Set(matches.map(m => m.docId)).size`). -/
def docCountOf (idx : List (String × List Posting)) (term : String) : Nat :=
  ((indexGet idx term).map (fun m => m.docId)).dedup.length

/-- `calculateIDF`, as a function of `this.documents.size` and the
distinct-document count: `1` when `docCount === 0`, otherwise
`Math.log(totalDocs / docCount)`. -/
noncomputable def calculateIDF (totalDocs docCount : Nat) : ℝ :=
  if docCount = 0 then 1
  else Real.log ((totalDocs : ℝ) / (docCount : ℝ))

/-- One element of a result entry's `matches` array.  Exact search pushes
`fuzzy := false` (the JS object simply lacks the field); the fuzzy path
pushes `fuzzy := true`. -/
structure MatchInfo where
  type : String
  weight : Nat
  positions : List Nat
  sectionIndex : Option Nat
  itemIndex : Option Nat
  termScore : ℝ
  fuzzy : Bool

/-- One value of the `docScores` map and one element of the returned
result array. -/
structure DocScoreEntry where
  docId : String
  score : ℝ
  matchList : List MatchInfo
  metadata : DocMetadata

/-- The shared `docScores` update of `search` and `fuzzySearch`: create
the entry (`score: 0, matches: []`) if the document has none yet, then
`score += ts` and `matches.push(mi)`.  A fresh key is appended at the end
(JS `Map` insertion order). -/
def accumEntry (docId : String) (md : DocMetadata) (ts : ℝ) (mi : MatchInfo) :
    List (String × DocScoreEntry) → List (String × DocScoreEntry)
  | [] => [(docId, { docId := docId, score := 0 + ts, matchList := [mi], metadata := md })]
  | (k, e) :: rest =>
      if k = docId then
        (k, { e with score := e.score + ts, matchList := e.matchList ++ [mi] }) :: rest
      else (k, e) :: accumEntry docId md ts mi rest

/-- The score a document accumulated in a `docScores` map (`0` when the
document has no entry); used to state properties of the accumulation. -/
noncomputable def scoreOf (l : List (String × DocScoreEntry)) (d : String) : ℝ :=
  match l.lookup d with
  | some e => e.score
  | none => 0

/-- The comparator `(a, b) => b.score - a.score` passed to `sort`:
descending by score (stable, as JS `Array.prototype.sort` is). -/
noncomputable def scoreDesc (a b : DocScoreEntry) : Bool :=
  decide (b.score ≤ a.score)

/-- The `docScores` map built by `search` for a list of query terms. -/
noncomputable def searchDocScores (st : SearchIndexState) (queryTerms : List String) :
    List (String × DocScoreEntry) :=
  queryTerms.foldl (fun acc term =>
    (indexGet st.index term).foldl (fun acc2 m =>
      let idf := calculateIDF st.documents.length (docCountOf st.index term)
      let termScore := (m.weight : ℝ) * (m.count : ℝ) * idf
      accumEntry m.docId m.metadata termScore
        { type := m.type, weight := m.weight, positions := m.positions,
          sectionIndex := m.sectionIndex, itemIndex := m.itemIndex,
          termScore := termScore, fuzzy := false } acc2) acc) []

/-- `search(query, maxResults)`: guard on an unbuilt index and an
empty/whitespace query, tokenize, accumulate weighted TF-IDF scores per
document, sort descending by score and truncate. -/
noncomputable def search (st : SearchIndexState) (query : String) (maxResults : Nat) :
    List DocScoreEntry :=
  if st.isIndexed = false ∨ (strTrim query).length = 0 then []
  else
    let queryTerms := tokenize query
    if queryTerms.length = 0 then []
    else
      (((searchDocScores st queryTerms).map Prod.snd).mergeSort scoreDesc).take maxResults

/-- The `docScores` map built by the fuzzy branch of `fuzzySearch`: scan
the whole vocabulary, accept a term when
`distance <= maxDistance && distance < term.length`, and add
`weight * (1 / (distance + 1)) * 0.5` per posting. -/
noncomputable def fuzzyDocScores (idx : List (String × List Posting))
    (queryLower : String) (maxDistance : Nat) : List (String × DocScoreEntry) :=
  idx.foldl (fun acc tm =>
    let distance := levenshteinDistance queryLower tm.1
    if distance ≤ maxDistance ∧ distance < tm.1.length then
      tm.2.foldl (fun acc2 m =>
        let fuzzyScore := (m.weight : ℝ) * (1 / ((distance : ℝ) + 1)) * 0.5
        accumEntry m.docId m.metadata fuzzyScore
          { type := m.type, weight := m.weight, positions := m.positions,
            sectionIndex := m.sectionIndex, itemIndex := m.itemIndex,
            termScore := fuzzyScore, fuzzy := true } acc2) acc
    else acc) []

/-- `fuzzySearch(query, maxResults, maxDistance)`: same guards as
`search`, then return the exact results when there are any; otherwise run
the Levenshtein scan over the vocabulary, sort and truncate. -/
noncomputable def fuzzySearch (st : SearchIndexState) (query : String)
    (maxResults maxDistance : Nat) : List DocScoreEntry :=
  if st.isIndexed = false ∨ (strTrim query).length = 0 then []
  else
    let queryLower := strToLower query
    let exactResults := search st query maxResults
    if 0 < exactResults.length then exactResults
    else
      (((fuzzyDocScores st.index queryLower maxDistance).map Prod.snd).mergeSort
        scoreDesc).take maxResults

/-- JS `Set.add` on an insertion-ordered set of strings. -/
def setAdd (l : List String) (s : String) : List String :=
  if s ∈ l then l else l ++ [s]

/-- `getSuggestions(query, maxSuggestions)`: same guards, then titles
containing the lowercased query as a substring, then titles of the
highest-weight document of every term strictly extending the query as a
prefix; deduplicated in insertion order and truncated. -/
def getSuggestions (st : SearchIndexState) (query : String) (maxSuggestions : Nat) :
    List String :=
  if st.isIndexed = false ∨ (strTrim query).length = 0 then []
  else
    let queryLower := strToLower query
    let fromTitles := st.documents.foldl (fun acc kv =>
      if strIncludes (strToLower kv.2.title) queryLower then setAdd acc kv.2.title
      else acc) []
    let fromTerms := st.index.foldl (fun acc tm =>
      if strStarts tm.1 queryLower && queryLower.length < tm.1.length then
        match (tm.2.mergeSort (fun a b => decide (b.weight ≤ a.weight))).head? with
        | some topMatch =>
            match st.documents.lookup topMatch.docId with
            | some doc => if doc.title = "" then acc else setAdd acc doc.title
            | none => acc
        | none => acc
      else acc) fromTitles
    fromTerms.take maxSuggestions

/-- The projection of a posting onto the lookup key used by `addTerm`'s
duplicate check: `(docId, type, sectionIndex, itemIndex)`. -/
def keyOf (p : Posting) : String × String × Option Nat × Option Nat :=
  (p.docId, p.type, p.sectionIndex, p.itemIndex)

/-- Concrete document metadata used in the concrete evaluation theorems. -/
def exampleMeta : DocMetadata :=
  { id := "d1", title := "Introduction to Loops", sectionId := "sec1",
    sectionLabel := "Section 1", groupId := none, groupLabel := none,
    path := "docs/loops.json" }

/-- A one-word document used to build a tiny concrete index. -/
def exampleDoc : DocData := { title := some "Loop", sections := none, content := none }

/-- A concrete built state holding one document titled "Loop". -/
def stBuilt : SearchIndexState :=
  buildIndex [{ docId := "d1", docData := some exampleDoc, metadata := exampleMeta }]

/-- A document job whose load succeeds with trivial content. -/
def okJob : DocJob :=
  { docId := "d", docData := some { title := none, sections := none, content := none },
    metadata := exampleMeta }

/-- A document job whose load fails (`docData = none`). -/
def failJob : DocJob := { docId := "dFail", docData := none, metadata := exampleMeta }

/-- Scenario C of the spec: a build over 10 documents of which 2 fail to
load. -/
def scenarioDocs : List DocJob := List.replicate 8 okJob ++ [failJob, failJob]

/-- A document whose only payload is a code body, used to test whether
code bodies are indexed. -/
def codeDoc : DocData :=
  { title := none,
    sections := some [{ title := none, content := none, code := some "foobar baz",
                        tabs := none, items := none }],
    content := none }

/-- A freshly constructed, never built state. -/
def stUnbuilt : SearchIndexState :=
  { index := [], documents := [], isIndexed := false,
    indexingProgress := 0, totalDocuments := 0 }

/-- A concrete `addTerm` call sequence for the concrete evaluation
theorems ("x" is dropped by the minimum-length filter). -/
def exampleOps : List AddTermOp :=
  [{ docId := "d1", text := some "Hello World x", type := "title", weight := 10,
     metadata := exampleMeta, sectionIndex := none, itemIndex := none }]

/-- A concrete posting for the concrete evaluation theorems. -/
def examplePosting : Posting :=
  { docId := "d1", type := "title", weight := 10, metadata := exampleMeta,
    positions := [0], count := 1, sectionIndex := none, itemIndex := none }

/-- Every key of the inverted index has length at least 2. -/
def keysMin2 (idx : List (String × List Posting)) : Prop :=
  ∀ t ∈ idx.map Prod.fst, 2 ≤ t.length

/-- Every posting list of the index is key-distinct. -/
def postingsPairwise (idx : List (String × List Posting)) : Prop :=
  ∀ e ∈ idx, e.2.Pairwise (fun a b => keyOf a ≠ keyOf b)

/-- The `docScores` map has distinct keys and every entry's `docId` field
equals its key. -/
def scoresInv (l : List (String × DocScoreEntry)) : Prop :=
  (l.map Prod.fst).Nodup ∧ ∀ e ∈ l, e.2.docId = e.1

/-- The index has a posting for `term` whose lookup key is `k`. -/
def hasKeyAt (idx : List (String × List Posting)) (term : String)
    (k : String × String × Option Nat × Option Nat) : Prop :=
  ∃ p ∈ indexGet idx term, keyOf p = k

/-- Every posting with field type `code` has weight 2. -/
def codeWeight2 (idx : List (String × List Posting)) : Prop :=
  ∀ e ∈ idx, ∀ p ∈ e.2, p.type = "code" → p.weight = 2

/-! ## Correctness of the Levenshtein DP matrix -/

theorem levRec_nil (ys : List Char) : levRec [] ys = ys.length := by
  simp [levRec]

theorem levRec_cons_nil (x : Char) (xs : List Char) :
    levRec (x :: xs) [] = xs.length + 1 := by
  simp [levRec]

theorem levRec_self : (a : List Char) → levRec a a = 0
  | [] => by simp [levRec]
  | x :: xs => by simp [levRec, levRec_self xs]

theorem levRec_comm : (a b : List Char) → levRec a b = levRec b a
  | [], [] => rfl
  | [], _ :: _ => by simp [levRec]
  | _ :: _, [] => by simp [levRec]
  | x :: xs, y :: ys => by
      by_cases h : x = y
      · subst h
        simp [levRec, levRec_comm xs ys]
      · have h2 : ¬ y = x := fun e => h e.symm
        rw [levRec, levRec, if_neg h, if_neg h2,
          levRec_comm xs ys, levRec_comm (x :: xs) ys, levRec_comm xs (y :: ys),
          Nat.min_comm (levRec ys (x :: xs))]
termination_by a b => a.length + b.length
decreasing_by all_goals (simp only [List.length_cons]; omega)

theorem rowFrom_head (r2 r1 cs : List Char) :
    ∃ rest, rowFrom r2 r1 cs = levRec r2 r1 :: rest := by
  cases cs <;> exact ⟨_, rfl⟩

theorem levCell_eq (c2 c1 : Char) (r2 r1 : List Char) :
    levCell c2 c1 (levRec r2 r1) (levRec (c2 :: r2) r1) (levRec r2 (c1 :: r1)) =
    levRec (c2 :: r2) (c1 :: r1) := by
  by_cases h : c2 = c1
  · simp [levCell, levRec, h]
  · rw [levCell, if_neg h, levRec, if_neg h]
    omega

theorem levRowAux_spec (c2 : Char) :
    (cs r1 r2 : List Char) → (left : Nat) → left = levRec (c2 :: r2) r1 →
    levRowAux c2 cs (rowFrom r2 r1 cs) left = (rowFrom (c2 :: r2) r1 cs).tail
  | [], _, _, _, _ => rfl
  | c1 :: cs, r1, r2, left, h => by
      obtain ⟨rest, hrest⟩ := rowFrom_head r2 (c1 :: r1) cs
      have hrow : rowFrom r2 r1 (c1 :: cs) =
          levRec r2 r1 :: levRec r2 (c1 :: r1) :: rest := by
        rw [rowFrom, hrest]
      rw [hrow, levRowAux]
      have hcur : levCell c2 c1 (levRec r2 r1) left (levRec r2 (c1 :: r1)) =
          levRec (c2 :: r2) (c1 :: r1) := by
        rw [h]; exact levCell_eq c2 c1 r2 r1
      rw [hcur, ← hrest, levRowAux_spec c2 cs (c1 :: r1) r2 _ rfl]
      obtain ⟨rest2, hrest2⟩ := rowFrom_head (c2 :: r2) (c1 :: r1) cs
      rw [rowFrom, hrest2]
      simp

theorem levRow_spec (c2 : Char) (cs1 r2 : List Char) :
    levRow c2 cs1 (rowFrom r2 [] cs1) (r2.length + 1) = rowFrom (c2 :: r2) [] cs1 := by
  have hlen : r2.length + 1 = levRec (c2 :: r2) [] := by simp [levRec]
  rw [levRow, levRowAux_spec c2 cs1 [] r2 _ hlen]
  obtain ⟨rest, hrest⟩ := rowFrom_head (c2 :: r2) [] cs1
  rw [hrest, ← hlen]
  simp

theorem levRows_spec (cs1 : List Char) :
    (cs2 r2 : List Char) →
    levRows cs1 cs2 (rowFrom r2 [] cs1) (r2.length + 1) =
      rowFrom (cs2.reverse ++ r2) [] cs1
  | [], r2 => by simp [levRows]
  | c2 :: cs2, r2 => by
      rw [levRows, levRow_spec]
      have ih := levRows_spec cs1 cs2 (c2 :: r2)
      simp only [List.length_cons] at ih
      rw [ih]
      simp [List.append_assoc]

theorem rowFrom_getLastD (r2 : List Char) :
    (cs r1 : List Char) → (d : Nat) →
    (rowFrom r2 r1 cs).getLastD d = levRec r2 (cs.reverse ++ r1)
  | [], r1, d => by simp [rowFrom]
  | c :: cs, r1, d => by
      rw [rowFrom, List.getLastD_cons, rowFrom_getLastD r2 cs (c :: r1) _]
      simp

theorem rowFrom_nil_eq_range : (cs r1 : List Char) →
    rowFrom [] r1 cs = List.range' r1.length (cs.length + 1)
  | [], r1 => by simp [rowFrom, levRec_nil, List.range']
  | c :: cs, r1 => by
      rw [rowFrom, rowFrom_nil_eq_range cs (c :: r1)]
      simp [levRec_nil, List.range', List.length_cons]

theorem levenshteinDistance_eq (s1 s2 : String) :
    levenshteinDistance s1 s2 = levRec s2.data.reverse s1.data.reverse := by
  rw [levenshteinDistance]
  have h0 : List.range (s1.data.length + 1) = rowFrom [] [] s1.data := by
    rw [rowFrom_nil_eq_range s1.data []]
    simp [List.range_eq_range']
  rw [h0]
  have h1 := levRows_spec s1.data s2.data []
  simp only [List.length_nil, List.append_nil] at h1
  rw [h1, rowFrom_getLastD]
  simp

/-- Claim C7: `levenshteinDistance` is the standard unit-cost edit
distance: it is zero on equal strings, symmetric, and maps the pair
("kitten", "sitting") to 3. -/
theorem spec_C7 :
    (∀ x : String, levenshteinDistance x x = 0) ∧
    (∀ a b : String, levenshteinDistance a b = levenshteinDistance b a) ∧
    levenshteinDistance "kitten" "sitting" = 3 := by
  refine ⟨?_, ?_, by decide⟩
  · intro x
    rw [levenshteinDistance_eq]
    exact levRec_self _
  · intro a b
    rw [levenshteinDistance_eq, levenshteinDistance_eq, levRec_comm]

/-! ## IDF (claim C3) -/

/-- Claim C3 counterexample: the claimed guard `totalDocuments = 0 → idf = 0`
does not exist in the code; with `totalDocuments = 0` and
`documentsContainingTerm = 0` the `docCount === 0` guard fires first and
`calculateIDF` returns `1`, not `0`. -/
theorem spec_C3_cex : calculateIDF 0 0 = 1 ∧ calculateIDF 0 0 ≠ 0 := by
  constructor
  · simp [calculateIDF]
  · simp [calculateIDF]

/-- Claim C3 (amended): `calculateIDF` returns `1` whenever
`documentsContainingTerm = 0` (this guard takes precedence, also when
`totalDocuments = 0`; there is no separate `totalDocuments = 0` guard),
and otherwise `ln(totalDocuments / documentsContainingTerm)`; a term
occurring in every document (of `totalDocuments > 0`) has idf `0`, and the
idf is non-increasing in `documentsContainingTerm` on the meaningful
domain `documentsContainingTerm ≥ 1`. -/
theorem spec_C3 :
    (∀ N : ℕ, calculateIDF N 0 = 1) ∧
    (∀ N d : ℕ, 0 < d → calculateIDF N d = Real.log ((N : ℝ) / (d : ℝ))) ∧
    (∀ N : ℕ, 0 < N → calculateIDF N N = 0) ∧
    (∀ N d e : ℕ, 0 < d → d ≤ e → calculateIDF N e ≤ calculateIDF N d) := by
  have hval : ∀ N d : ℕ, 0 < d → calculateIDF N d = Real.log ((N : ℝ) / (d : ℝ)) := by
    intro N d hd
    rw [calculateIDF, if_neg (Nat.pos_iff_ne_zero.mp hd)]
  refine ⟨fun N => by simp [calculateIDF], hval, ?_, ?_⟩
  · intro N hN
    rw [hval N N hN, div_self (by exact_mod_cast hN.ne'), Real.log_one]
  · intro N d e hd hde
    have he : 0 < e := lt_of_lt_of_le hd hde
    rw [hval N d hd, hval N e he]
    rcases Nat.eq_zero_or_pos N with h0 | hN
    · subst h0; simp
    · have hNr : (0 : ℝ) < N := by exact_mod_cast hN
      have hdr : (0 : ℝ) < d := by exact_mod_cast hd
      have her : (0 : ℝ) < e := by exact_mod_cast he
      apply Real.log_le_log (by positivity)
      apply div_le_div_of_nonneg_left hNr.le hdr
      exact_mod_cast hde

/-- Witness for C3 at concrete inputs. -/
theorem spec_C3_witness :
    calculateIDF 4 0 = 1 ∧ calculateIDF 4 4 = 0 ∧ calculateIDF 4 4 ≤ calculateIDF 4 2 :=
  ⟨spec_C3.1 4, spec_C3.2.2.1 4 (by norm_num),
   spec_C3.2.2.2 4 2 4 (by norm_num) (by norm_num)⟩

/-! ## Empty-result guards (claim C8) -/

/-- Claim C8: against an unbuilt index, or for an empty/whitespace-only
query (one whose trim is empty), `search`, `fuzzySearch` and
`getSuggestions` all return the empty list (the operations are total, so
no error can be raised). -/
theorem spec_C8 (st : SearchIndexState) (q : String) (mr md ms : Nat)
    (h : st.isIndexed = false ∨ strTrim q = "") :
    search st q mr = [] ∧ fuzzySearch st q mr md = [] ∧ getSuggestions st q ms = [] := by
  have hg : st.isIndexed = false ∨ (strTrim q).length = 0 := by
    rcases h with h | h
    · exact Or.inl h
    · exact Or.inr (by rw [h]; rfl)
  refine ⟨?_, ?_, ?_⟩
  · rw [search, if_pos hg]
  · rw [fuzzySearch, if_pos hg]
  · rw [getSuggestions, if_pos hg]

/-- Witness for C8: queries against a never-built state, and a
whitespace-only query against a built state. -/
theorem spec_C8_witness :
    (search stUnbuilt "loop" 50 = [] ∧ fuzzySearch stUnbuilt "loop" 50 2 = [] ∧
      getSuggestions stUnbuilt "loop" 10 = []) ∧
    (search stBuilt "  " 50 = [] ∧ fuzzySearch stBuilt "  " 50 2 = [] ∧
      getSuggestions stBuilt "  " 10 = []) :=
  ⟨spec_C8 stUnbuilt "loop" 50 2 10 (Or.inl rfl),
   spec_C8 stBuilt "  " 50 2 10 (Or.inr (by decide))⟩

/-! ## Build progress (claim C2) -/

theorem build_fold_counters : (docs : List DocJob) → (st : SearchIndexState) →
    (∀ j ∈ docs, j.docData.isSome) →
    ((docs.foldl (fun s j => indexDocument s j.docId j.docData j.metadata) st).indexingProgress
        = st.indexingProgress + docs.length) ∧
    ((docs.foldl (fun s j => indexDocument s j.docId j.docData j.metadata) st).totalDocuments
        = st.totalDocuments)
  | [], st, _ => by simp
  | j :: docs, st, h => by
      obtain ⟨d, hd⟩ := Option.isSome_iff_exists.mp (h j (List.mem_cons_self j docs))
      have step : indexDocument st j.docId j.docData j.metadata =
          { st with
            documents := docSet st.documents j.docId j.metadata
            index := indexDocumentContent j.docId d j.metadata st.index
            indexingProgress := st.indexingProgress + 1 } := by
        rw [hd, indexDocument]
      have ih := build_fold_counters docs
        (indexDocument st j.docId j.docData j.metadata)
        (fun x hx => h x (List.mem_cons_of_mem j hx))
      rw [List.foldl_cons] at *
      refine ⟨?_, ?_⟩
      · rw [ih.1, step]
        simp [List.length_cons]
        omega
      · rw [ih.2, step]

theorem buildIndex_counters (docs : List DocJob) :
    (buildIndex docs).indexingProgress =
      (docs.foldl (fun s j => indexDocument s j.docId j.docData j.metadata)
        { index := [], documents := [], isIndexed := false,
          indexingProgress := 0, totalDocuments := docs.length }).indexingProgress ∧
    (buildIndex docs).totalDocuments =
      (docs.foldl (fun s j => indexDocument s j.docId j.docData j.metadata)
        { index := [], documents := [], isIndexed := false,
          indexingProgress := 0, totalDocuments := docs.length }).totalDocuments :=
  ⟨rfl, rfl⟩

/-- Claim C2 counterexample: over 10 documents of which 2 fail to load,
the code leaves `indexingProgress = 8` (failures are not counted) and so
`getProgress()` returns `0.8`, not the claimed `1.0`, even though the
index reports built. -/
theorem spec_C2_cex :
    (buildIndex scenarioDocs).totalDocuments = 10 ∧
    (buildIndex scenarioDocs).indexingProgress = 8 ∧
    (buildIndex scenarioDocs).isIndexed = true ∧
    getProgress (buildIndex scenarioDocs) = 4 / 5 ∧
    getProgress (buildIndex scenarioDocs) ≠ 1 := by
  have ht : (buildIndex scenarioDocs).totalDocuments = 10 := rfl
  have hp : (buildIndex scenarioDocs).indexingProgress = 8 := rfl
  have hval : getProgress (buildIndex scenarioDocs) = 4 / 5 := by
    rw [getProgress, ht, hp, if_neg (by norm_num), min_eq_left (by norm_num)]
    norm_num
  exact ⟨ht, hp, rfl, hval, by rw [hval]; norm_num⟩

/-- Claim C2 (amended): `getProgress()` is monotonically non-decreasing
across `indexDocument` steps (so during a build), and equals `1.0` after a
build in which every document loaded successfully; when loads fail,
progress reflects successful completion only (the counterexample: 8
successes out of 10 give `0.8` with `isIndexed = true`). -/
theorem spec_C2 :
    (∀ (st : SearchIndexState) (docId : String) (dd : Option DocData) (md : DocMetadata),
        getProgress st ≤ getProgress (indexDocument st docId dd md)) ∧
    (∀ docs : List DocJob, (∀ j ∈ docs, j.docData.isSome) →
        getProgress (buildIndex docs) = 1) := by
  constructor
  · intro st docId dd md
    cases dd with
    | none => exact le_refl _
    | some d =>
        rw [indexDocument]
        by_cases h : st.totalDocuments = 0
        · simp [getProgress, h]
        · have hT : (0 : ℚ) < st.totalDocuments := by
            exact_mod_cast Nat.pos_of_ne_zero h
          simp only [getProgress, h, if_neg]
          apply min_le_min _ (le_refl (1 : ℚ))
          apply div_le_div_of_nonneg_right _ hT.le
          exact_mod_cast Nat.le_succ _
  · intro docs h
    have hc := build_fold_counters docs
      { index := [], documents := [], isIndexed := false,
        indexingProgress := 0, totalDocuments := docs.length } h
    have hp : (buildIndex docs).indexingProgress = docs.length := by
      rw [(buildIndex_counters docs).1, hc.1]
      simp
    have ht : (buildIndex docs).totalDocuments = docs.length := by
      rw [(buildIndex_counters docs).2, hc.2]
    rw [getProgress, hp, ht]
    by_cases h0 : docs.length = 0
    · simp [h0]
    · rw [if_neg h0, div_self (by exact_mod_cast h0), min_self]

/-- Witness for C2 at concrete inputs: a failing-load step does not
decrease progress, and a fully successful one-document build reports
progress `1`. -/
theorem spec_C2_witness :
    getProgress stBuilt ≤ getProgress (indexDocument stBuilt "d2" none exampleMeta) ∧
    getProgress (buildIndex [okJob]) = 1 :=
  ⟨spec_C2.1 stBuilt "d2" none exampleMeta,
   spec_C2.2 [okJob] (by
     intro j hj
     rw [List.mem_singleton] at hj
     subst hj
     rfl)⟩

/-! ## Index construction invariants (claims C9 and C4) -/

theorem foldl_preserves {σ α : Type} (P : σ → Prop) (f : σ → α → σ)
    (hf : ∀ s a, P s → P (f s a)) :
    ∀ (l : List α) (s : σ), P s → P (l.foldl f s) := by
  intro l
  induction l with
  | nil => intro s h; exact h
  | cons a l ih => intro s h; exact ih _ (hf s a h)

theorem strToLower_length (s : String) : (strToLower s).length = s.length :=
  List.length_map s.data Char.toLower

theorem lookup_mem {β : Type} : (l : List (String × β)) → (t : String) → (v : β) →
    l.lookup t = some v → (t, v) ∈ l
  | [], t, v, h => by simp [List.lookup] at h
  | (k, w) :: rest, t, v, h => by
      rw [List.lookup] at h
      by_cases hk : t = k
      · subst hk
        simp at h
        subst h
        exact List.mem_cons_self _ _
      · have : (t == k) = false := beq_false_of_ne hk
        rw [this] at h
        exact List.mem_cons_of_mem _ (lookup_mem rest t v h)

theorem bumpTerm_keys (term d ty : String) (w : Nat) (md : DocMetadata)
    (si ii : Option Nat) (pos : Nat) :
    ∀ idx : List (String × List Posting),
      (bumpTerm term d ty w md si ii pos idx).map Prod.fst = idx.map Prod.fst := by
  intro idx
  induction idx with
  | nil => rfl
  | cons e rest ih =>
      obtain ⟨t, ps⟩ := e
      rw [bumpTerm]
      by_cases h : t = term
      · rw [if_pos h]
        rfl
      · rw [if_neg h]
        simp [ih]

theorem addToken_keysMin2 (d ty : String) (w : Nat) (md : DocMetadata)
    (si ii : Option Nat) (pos : Nat) (token : String)
    (idx : List (String × List Posting)) (h : keysMin2 idx) :
    keysMin2 (addToken idx d ty w md si ii pos token) := by
  rw [addToken]
  by_cases hlen : token.length < 2
  · rwa [if_pos hlen]
  · rw [if_neg hlen]
    intro t ht
    rw [bumpTerm_keys] at ht
    by_cases hmem : (idx.lookup (strToLower token)).isSome
    · rw [if_pos hmem] at ht
      exact h t ht
    · rw [if_neg hmem] at ht
      simp only [List.map_append, List.map_cons, List.map_nil] at ht
      rcases List.mem_append.mp ht with h1 | h1
      · exact h t h1
      · rw [List.mem_singleton] at h1
        subst h1
        rw [strToLower_length]
        omega

theorem addTerm_keysMin2 (d : String) (text : Option String) (ty : String) (w : Nat)
    (md : DocMetadata) (si ii : Option Nat)
    (idx : List (String × List Posting)) (h : keysMin2 idx) :
    keysMin2 (addTerm idx d text ty w md si ii) := by
  cases text with
  | none => exact h
  | some s =>
      rw [addTerm]
      exact foldl_preserves keysMin2 _
        (fun ix pt hp => addToken_keysMin2 d ty w md si ii pt.1 pt.2 ix hp)
        (tokenize s).enum idx h

theorem applyOps_keysMin2 (ops : List AddTermOp)
    (idx : List (String × List Posting)) (h : keysMin2 idx) :
    keysMin2 (applyOps ops idx) :=
  foldl_preserves keysMin2 applyAddTerm
    (fun ix op hp =>
      addTerm_keysMin2 op.docId op.text op.type op.weight op.metadata
        op.sectionIndex op.itemIndex ix hp)
    ops idx h

/-- Claim C9: after any sequence of `addTerm` calls on an initially empty
index, every term stored as a key in the inverted index has length at
least 2 — shorter tokens are filtered out and never create a posting
list. -/
theorem spec_C9 (ops : List AddTermOp) (t : String)
    (h : t ∈ (applyOps ops []).map Prod.fst) : 2 ≤ t.length :=
  applyOps_keysMin2 ops [] (by intro x hx; simp at hx) t h

/-- Witness for C9: the sequence `exampleOps` stores the key "hello". -/
theorem spec_C9_witness :
    "hello" ∈ (applyOps exampleOps []).map Prod.fst ∧ 2 ≤ ("hello" : String).length :=
  ⟨by decide, spec_C9 exampleOps "hello" (by decide)⟩

theorem postingKeyMatches_iff (p : Posting) (d ty : String) (si ii : Option Nat) :
    postingKeyMatches p d ty si ii = true ↔ keyOf p = (d, ty, si, ii) := by
  simp [postingKeyMatches, keyOf, Prod.ext_iff, and_assoc]

theorem mem_bumpList_keyOf (d ty : String) (w : Nat) (md : DocMetadata)
    (si ii : Option Nat) (pos : Nat) :
    ∀ (ps : List Posting) (q : Posting), q ∈ bumpList d ty w md si ii pos ps →
      keyOf q ∈ ps.map keyOf ∨ keyOf q = (d, ty, si, ii) := by
  intro ps
  induction ps with
  | nil =>
      intro q hq
      rw [bumpList, List.mem_singleton] at hq
      subst hq
      right
      rfl
  | cons p ps ih =>
      intro q hq
      rw [bumpList] at hq
      by_cases hm : postingKeyMatches p d ty si ii
      · rw [if_pos hm] at hq
        rcases List.mem_cons.mp hq with h | h
        · left
          have hk : keyOf q = keyOf p := by rw [h]; rfl
          rw [hk]
          exact List.mem_map_of_mem keyOf (List.mem_cons_self p ps)
        · left
          exact List.mem_map_of_mem keyOf (List.mem_cons_of_mem p h)
      · rw [if_neg hm] at hq
        rcases List.mem_cons.mp hq with h | h
        · left
          rw [h]
          exact List.mem_map_of_mem keyOf (List.mem_cons_self p ps)
        · rcases ih q h with h2 | h2
          · left
            rw [List.map_cons]
            exact List.mem_cons_of_mem _ h2
          · right
            exact h2

theorem bumpList_pairwise (d ty : String) (w : Nat) (md : DocMetadata)
    (si ii : Option Nat) (pos : Nat) (ps : List Posting)
    (hp : ps.Pairwise (fun a b => keyOf a ≠ keyOf b)) :
    (bumpList d ty w md si ii pos ps).Pairwise (fun a b => keyOf a ≠ keyOf b) := by
  induction ps with
  | nil => simp [bumpList]
  | cons p ps ih =>
      rw [List.pairwise_cons] at hp
      obtain ⟨hph, hpt⟩ := hp
      rw [bumpList]
      by_cases hm : postingKeyMatches p d ty si ii
      · rw [if_pos hm, List.pairwise_cons]
        exact ⟨fun q hq => hph q hq, hpt⟩
      · rw [if_neg hm, List.pairwise_cons]
        refine ⟨?_, ih hpt⟩
        intro q hq
        rcases mem_bumpList_keyOf d ty w md si ii pos ps q hq with h | h
        · obtain ⟨a, ha, hak⟩ := List.mem_map.mp h
          rw [← hak]
          exact hph a ha
        · rw [h]
          intro he
          exact hm ((postingKeyMatches_iff p d ty si ii).mpr he)

theorem bumpTerm_postingsPairwise (term d ty : String) (w : Nat) (md : DocMetadata)
    (si ii : Option Nat) (pos : Nat) :
    ∀ idx : List (String × List Posting), postingsPairwise idx →
      postingsPairwise (bumpTerm term d ty w md si ii pos idx) := by
  intro idx
  induction idx with
  | nil => intro h; exact h
  | cons e rest ih =>
      intro h
      obtain ⟨t, ps⟩ := e
      rw [bumpTerm]
      by_cases ht : t = term
      · rw [if_pos ht]
        intro e2 he2
        rcases List.mem_cons.mp he2 with h2 | h2
        · subst h2
          exact bumpList_pairwise d ty w md si ii pos ps
            (h (t, ps) (List.mem_cons_self _ _))
        · exact h e2 (List.mem_cons_of_mem _ h2)
      · rw [if_neg ht]
        intro e2 he2
        rcases List.mem_cons.mp he2 with h2 | h2
        · subst h2
          exact h (t, ps) (List.mem_cons_self _ _)
        · exact ih (fun e3 he3 => h e3 (List.mem_cons_of_mem _ he3)) e2 h2

theorem addToken_postingsPairwise (d ty : String) (w : Nat) (md : DocMetadata)
    (si ii : Option Nat) (pos : Nat) (token : String)
    (idx : List (String × List Posting)) (h : postingsPairwise idx) :
    postingsPairwise (addToken idx d ty w md si ii pos token) := by
  rw [addToken]
  by_cases hlen : token.length < 2
  · rwa [if_pos hlen]
  · rw [if_neg hlen]
    apply bumpTerm_postingsPairwise
    by_cases hmem : (idx.lookup (strToLower token)).isSome
    · rwa [if_pos hmem]
    · rw [if_neg hmem]
      intro e he
      rcases List.mem_append.mp he with h1 | h1
      · exact h e h1
      · rw [List.mem_singleton] at h1
        subst h1
        exact List.Pairwise.nil

theorem addTerm_postingsPairwise (d : String) (text : Option String) (ty : String)
    (w : Nat) (md : DocMetadata) (si ii : Option Nat)
    (idx : List (String × List Posting)) (h : postingsPairwise idx) :
    postingsPairwise (addTerm idx d text ty w md si ii) := by
  cases text with
  | none => exact h
  | some s =>
      rw [addTerm]
      exact foldl_preserves postingsPairwise _
        (fun ix pt hp => addToken_postingsPairwise d ty w md si ii pt.1 pt.2 ix hp)
        (tokenize s).enum idx h

theorem applyOps_postingsPairwise (ops : List AddTermOp)
    (idx : List (String × List Posting)) (h : postingsPairwise idx) :
    postingsPairwise (applyOps ops idx) :=
  foldl_preserves postingsPairwise applyAddTerm
    (fun ix op hp =>
      addTerm_postingsPairwise op.docId op.text op.type op.weight op.metadata
        op.sectionIndex op.itemIndex ix hp)
    ops idx h

theorem pairwise_filter_key_le_one (ps : List Posting) (d ty : String)
    (si ii : Option Nat) (hp : ps.Pairwise (fun a b => keyOf a ≠ keyOf b)) :
    (ps.filter (fun p => postingKeyMatches p d ty si ii)).length ≤ 1 := by
  have hf := hp.filter (fun p => postingKeyMatches p d ty si ii)
  cases hfl : ps.filter (fun p => postingKeyMatches p d ty si ii) with
  | nil => simp
  | cons a tl =>
      cases tl with
      | nil => simp
      | cons b tl2 =>
          exfalso
          rw [hfl, List.pairwise_cons] at hf
          have hab := hf.1 b (List.mem_cons_self _ _)
          have ha : a ∈ ps.filter (fun p => postingKeyMatches p d ty si ii) := by
            rw [hfl]; exact List.mem_cons_self _ _
          have hb : b ∈ ps.filter (fun p => postingKeyMatches p d ty si ii) := by
            rw [hfl]
            exact List.mem_cons_of_mem _ (List.mem_cons_self _ _)
          have ha2 := (postingKeyMatches_iff a d ty si ii).mp (List.mem_filter.mp ha).2
          have hb2 := (postingKeyMatches_iff b d ty si ii).mp (List.mem_filter.mp hb).2
          exact hab (ha2.trans hb2.symm)

theorem bumpList_found (d ty : String) (w : Nat) (md : DocMetadata)
    (si ii : Option Nat) (pos : Nat) :
    ∀ ps : List Posting,
      (ps.filter (fun p => postingKeyMatches p d ty si ii)).length = 1 →
      (bumpList d ty w md si ii pos ps).length = ps.length ∧
      ((bumpList d ty w md si ii pos ps).filter
          (fun p => postingKeyMatches p d ty si ii)).map (fun p => p.count)
        = (ps.filter (fun p => postingKeyMatches p d ty si ii)).map
            (fun p => p.count + 1) ∧
      ((bumpList d ty w md si ii pos ps).filter
          (fun p => postingKeyMatches p d ty si ii)).map (fun p => p.positions)
        = (ps.filter (fun p => postingKeyMatches p d ty si ii)).map
            (fun p => p.positions ++ [pos]) := by
  intro ps
  induction ps with
  | nil => intro h; simp at h
  | cons p ps ih =>
      intro h
      by_cases hm : postingKeyMatches p d ty si ii
      · have hm2 : postingKeyMatches
            { p with positions := p.positions ++ [pos], count := p.count + 1 }
            d ty si ii = true := hm
        have hmain : (p :: ps).filter (fun q => postingKeyMatches q d ty si ii)
            = p :: ps.filter (fun q => postingKeyMatches q d ty si ii) := by
          simp [List.filter_cons, hm]
        rw [hmain] at h
        have htl : ps.filter (fun q => postingKeyMatches q d ty si ii) = [] :=
          List.length_eq_zero.mp (by simpa using h)
        have hbump : bumpList d ty w md si ii pos (p :: ps)
            = { p with positions := p.positions ++ [pos], count := p.count + 1 } :: ps := by
          rw [bumpList, if_pos hm]
        refine ⟨by rw [hbump]; rfl, ?_, ?_⟩
        · rw [hbump, hmain]
          simp [List.filter_cons, hm2, htl]
        · rw [hbump, hmain]
          simp [List.filter_cons, hm2, htl]
      · have hmain : (p :: ps).filter (fun q => postingKeyMatches q d ty si ii)
            = ps.filter (fun q => postingKeyMatches q d ty si ii) := by
          simp [List.filter_cons, hm]
        rw [hmain] at h
        obtain ⟨ih1, ih2, ih3⟩ := ih h
        have hbump : bumpList d ty w md si ii pos (p :: ps)
            = p :: bumpList d ty w md si ii pos ps := by
          rw [bumpList, if_neg hm]
        refine ⟨?_, ?_, ?_⟩
        · rw [hbump, List.length_cons, List.length_cons, ih1]
        · rw [hbump, hmain]
          have hstep : (p :: bumpList d ty w md si ii pos ps).filter
              (fun q => postingKeyMatches q d ty si ii)
              = (bumpList d ty w md si ii pos ps).filter
                  (fun q => postingKeyMatches q d ty si ii) := by
            simp [List.filter_cons, hm]
          rw [hstep, ih2]
        · rw [hbump, hmain]
          have hstep : (p :: bumpList d ty w md si ii pos ps).filter
              (fun q => postingKeyMatches q d ty si ii)
              = (bumpList d ty w md si ii pos ps).filter
                  (fun q => postingKeyMatches q d ty si ii) := by
            simp [List.filter_cons, hm]
          rw [hstep, ih3]

/-- Claim C4: after any sequence of `addTerm` calls on an initially empty
index, each `(term, docId, fieldType, blockIndex, itemIndex)` key owns at
most one posting; and when a token's key already has exactly one posting,
`bumpList` (the body of `addTerm`'s occurrence recording) increments that
posting's `count` and appends the position to its `positions`, leaving the
list length unchanged instead of creating a second posting. -/
theorem spec_C4 :
    (∀ (ops : List AddTermOp) (t d ty : String) (si ii : Option Nat),
        ((indexGet (applyOps ops []) t).filter
          (fun p => postingKeyMatches p d ty si ii)).length ≤ 1) ∧
    (∀ (ps : List Posting) (d ty : String) (w : Nat) (md : DocMetadata)
        (si ii : Option Nat) (pos : Nat),
        (ps.filter (fun p => postingKeyMatches p d ty si ii)).length = 1 →
        (bumpList d ty w md si ii pos ps).length = ps.length ∧
        ((bumpList d ty w md si ii pos ps).filter
            (fun p => postingKeyMatches p d ty si ii)).map (fun p => p.count)
          = (ps.filter (fun p => postingKeyMatches p d ty si ii)).map
              (fun p => p.count + 1) ∧
        ((bumpList d ty w md si ii pos ps).filter
            (fun p => postingKeyMatches p d ty si ii)).map (fun p => p.positions)
          = (ps.filter (fun p => postingKeyMatches p d ty si ii)).map
              (fun p => p.positions ++ [pos])) := by
  constructor
  · intro ops t d ty si ii
    have hinv : postingsPairwise (applyOps ops []) :=
      applyOps_postingsPairwise ops [] (by intro e he; simp at he)
    rw [indexGet]
    cases hl : (applyOps ops []).lookup t with
    | none => simp
    | some ps =>
        have hmem := lookup_mem (applyOps ops []) t ps hl
        exact pairwise_filter_key_le_one ps d ty si ii (hinv (t, ps) hmem)
  · intro ps d ty w md si ii pos h
    exact bumpList_found d ty w md si ii pos ps h

/-- Witness for C4: the key invariant on a concrete `addTerm` sequence,
and the increment behaviour on a concrete posting list. -/
theorem spec_C4_witness :
    ((indexGet (applyOps exampleOps []) "hello").filter
        (fun p => postingKeyMatches p "d1" "title" none none)).length ≤ 1 ∧
    ((bumpList "d1" "title" 10 exampleMeta none none 3 [examplePosting]).length
        = [examplePosting].length ∧
      ((bumpList "d1" "title" 10 exampleMeta none none 3 [examplePosting]).filter
          (fun p => postingKeyMatches p "d1" "title" none none)).map (fun p => p.count)
        = ([examplePosting].filter
            (fun p => postingKeyMatches p "d1" "title" none none)).map
            (fun p => p.count + 1) ∧
      ((bumpList "d1" "title" 10 exampleMeta none none 3 [examplePosting]).filter
          (fun p => postingKeyMatches p "d1" "title" none none)).map
          (fun p => p.positions)
        = ([examplePosting].filter
            (fun p => postingKeyMatches p "d1" "title" none none)).map
            (fun p => p.positions ++ [3])) :=
  ⟨spec_C4.1 exampleOps "hello" "d1" "title" none none,
   spec_C4.2 [examplePosting] "d1" "title" 10 exampleMeta none none 3 (by decide)⟩

/-! ## Distinct documents in search results (claim C10) -/

theorem accumEntry_keys (d0 : String) (md : DocMetadata) (ts : ℝ) (mi : MatchInfo) :
    ∀ l : List (String × DocScoreEntry),
      (accumEntry d0 md ts mi l).map Prod.fst
        = if d0 ∈ l.map Prod.fst then l.map Prod.fst else l.map Prod.fst ++ [d0] := by
  intro l
  induction l with
  | nil => simp [accumEntry]
  | cons e rest ih =>
      obtain ⟨k, v⟩ := e
      rw [accumEntry]
      by_cases hk : k = d0
      · subst hk
        simp
      · rw [if_neg hk]
        simp only [List.map_cons, List.mem_cons]
        have hne : ¬ d0 = k := fun e => hk e.symm
        by_cases hmem : d0 ∈ rest.map Prod.fst
        · simp [hne, hmem, ih]
        · simp [hne, hmem, ih]

theorem accumEntry_consistent (d0 : String) (md : DocMetadata) (ts : ℝ) (mi : MatchInfo) :
    ∀ l : List (String × DocScoreEntry),
      (∀ e ∈ l, e.2.docId = e.1) →
      ∀ e ∈ accumEntry d0 md ts mi l, e.2.docId = e.1 := by
  intro l
  induction l with
  | nil =>
      intro _ e he
      rw [accumEntry, List.mem_singleton] at he
      subst he
      rfl
  | cons p rest ih =>
      intro h e he
      obtain ⟨k, v⟩ := p
      rw [accumEntry] at he
      by_cases hk : k = d0
      · rw [if_pos hk] at he
        rcases List.mem_cons.mp he with h2 | h2
        · subst h2
          exact h (k, v) (List.mem_cons_self _ _)
        · exact h e (List.mem_cons_of_mem _ h2)
      · rw [if_neg hk] at he
        rcases List.mem_cons.mp he with h2 | h2
        · subst h2
          exact h (k, v) (List.mem_cons_self _ _)
        · exact ih (fun x hx => h x (List.mem_cons_of_mem _ hx)) e h2

theorem accumEntry_scoresInv (d0 : String) (md : DocMetadata) (ts : ℝ) (mi : MatchInfo)
    (l : List (String × DocScoreEntry)) (h : scoresInv l) :
    scoresInv (accumEntry d0 md ts mi l) := by
  obtain ⟨hk, hc⟩ := h
  constructor
  · rw [accumEntry_keys]
    by_cases hmem : d0 ∈ l.map Prod.fst
    · rwa [if_pos hmem]
    · rw [if_neg hmem]
      exact List.Nodup.append hk (List.nodup_singleton d0)
        (by simpa [List.disjoint_singleton] using hmem)
  · exact accumEntry_consistent d0 md ts mi l hc

theorem searchDocScores_scoresInv (st : SearchIndexState) (qts : List String) :
    scoresInv (searchDocScores st qts) := by
  rw [searchDocScores]
  refine foldl_preserves scoresInv _ ?_ qts [] ?_
  · intro acc term hacc
    exact foldl_preserves scoresInv _
      (fun acc2 m h2 => accumEntry_scoresInv m.docId m.metadata _ _ acc2 h2)
      (indexGet st.index term) acc hacc
  · exact ⟨List.nodup_nil, by intro e he; simp at he⟩

theorem nodup_docIds_of_scores (l : List (String × DocScoreEntry)) (mr : Nat)
    (h : scoresInv l) :
    ((((l.map Prod.snd).mergeSort scoreDesc).take mr).map (fun e => e.docId)).Nodup := by
  obtain ⟨hk, hc⟩ := h
  have hmap : (l.map Prod.snd).map (fun e => e.docId) = l.map Prod.fst := by
    rw [List.map_map]
    exact List.map_congr_left (fun e he => hc e he)
  have hnd : ((l.map Prod.snd).map (fun e => e.docId)).Nodup := by
    rw [hmap]; exact hk
  have hperm : ((l.map Prod.snd).mergeSort scoreDesc).Perm (l.map Prod.snd) :=
    List.mergeSort_perm _ _
  have hnd2 : (((l.map Prod.snd).mergeSort scoreDesc).map (fun e => e.docId)).Nodup :=
    (hperm.map (fun e => e.docId)).symm.nodup hnd
  have hsub : ((((l.map Prod.snd).mergeSort scoreDesc).take mr).map (fun e => e.docId)).Sublist
      (((l.map Prod.snd).mergeSort scoreDesc).map (fun e => e.docId)) :=
    (List.take_sublist mr _).map _
  exact hsub.nodup hnd2

/-- Claim C10: the list returned by `search` mentions each `docId` at most
once — per-document contributions accumulate into one entry's score
rather than producing duplicate result entries. -/
theorem spec_C10 (st : SearchIndexState) (q : String) (mr : Nat) :
    ((search st q mr).map (fun e => e.docId)).Nodup := by
  simp only [search]
  by_cases h1 : st.isIndexed = false ∨ (strTrim q).length = 0
  · rw [if_pos h1]
    exact List.nodup_nil
  · rw [if_neg h1]
    by_cases h2 : (tokenize q).length = 0
    · rw [if_pos h2]
      exact List.nodup_nil
    · rw [if_neg h2]
      exact nodup_docIds_of_scores (searchDocScores st (tokenize q)) mr
        (searchDocScores_scoresInv st (tokenize q))

/-! ## Fuzzy fallback only on empty exact results (claim C5) -/

/-- Claim C5: whenever `search` returns a non-empty list, `fuzzySearch`
with the same query and result bound returns exactly that list, for every
`maxDistance`: the edit-distance scan runs only when exact search found
nothing, so no fuzzy-only result can appear (or outrank anything) for a
query with exact matches. -/
theorem spec_C5 (st : SearchIndexState) (q : String) (mr md : Nat)
    (h : search st q mr ≠ []) :
    fuzzySearch st q mr md = search st q mr := by
  have hguard : ¬ (st.isIndexed = false ∨ (strTrim q).length = 0) := by
    intro hg
    apply h
    simp only [search]
    rw [if_pos hg]
  simp only [fuzzySearch]
  rw [if_neg hguard, if_pos (List.length_pos.mpr h)]

theorem search_stBuilt_loop_ne_nil : search stBuilt "loop" 50 ≠ [] := by
  have h1 : ¬ (stBuilt.isIndexed = false ∨ (strTrim "loop").length = 0) := by decide
  have h2 : ¬ ((tokenize "loop").length = 0) := by decide
  simp only [search]
  rw [if_neg h1, if_neg h2]
  have hlen : ((searchDocScores stBuilt (tokenize "loop")).map Prod.snd).length = 1 := rfl
  have hlen2 : (((((searchDocScores stBuilt (tokenize "loop")).map
      Prod.snd).mergeSort scoreDesc).take 50)).length = 1 := by
    rw [List.length_take, List.length_mergeSort, hlen]
    rfl
  intro hnil
  rw [hnil] at hlen2
  simp at hlen2

/-- Witness for C5 on the concrete one-document index: the query "loop"
has an exact hit, and `fuzzySearch` returns exactly the exact results. -/
theorem spec_C5_witness :
    fuzzySearch stBuilt "loop" 50 2 = search stBuilt "loop" 50 :=
  spec_C5 stBuilt "loop" 50 2 search_stBuilt_loop_ne_nil

/-! ## Fuzzy scoring characterization (claim C6) -/

theorem scoreOf_accumEntry (d0 : String) (md : DocMetadata) (ts : ℝ) (mi : MatchInfo) :
    ∀ (l : List (String × DocScoreEntry)) (d : String),
      scoreOf (accumEntry d0 md ts mi l) d
        = scoreOf l d + (if d = d0 then ts else 0) := by
  intro l
  induction l with
  | nil =>
      intro d
      by_cases hd : d = d0
      · rw [if_pos hd]
        subst hd
        simp [accumEntry, scoreOf, List.lookup]
      · rw [if_neg hd]
        have hbeq : (d == d0) = false := beq_false_of_ne hd
        simp [accumEntry, scoreOf, List.lookup, hbeq]
  | cons p rest ih =>
      intro d
      obtain ⟨k, v⟩ := p
      rw [accumEntry]
      by_cases hk : k = d0
      · rw [if_pos hk]
        by_cases hd : d = k
        · have hbeq : (d == k) = true := beq_iff_eq.mpr hd
          rw [if_pos (hd.trans hk)]
          simp [scoreOf, List.lookup, hbeq]
        · have hbeq : (d == k) = false := beq_false_of_ne hd
          rw [if_neg (fun e => hd (e.trans hk.symm))]
          simp [scoreOf, List.lookup, hbeq]
      · rw [if_neg hk]
        by_cases hd : d = k
        · have hbeq : (d == k) = true := beq_iff_eq.mpr hd
          rw [if_neg (fun e => hk (hd.symm.trans e))]
          simp [scoreOf, List.lookup, hbeq]
        · have hbeq : (d == k) = false := beq_false_of_ne hd
          have h1 : scoreOf ((k, v) :: accumEntry d0 md ts mi rest) d
              = scoreOf (accumEntry d0 md ts mi rest) d := by
            simp [scoreOf, List.lookup, hbeq]
          have h2 : scoreOf ((k, v) :: rest) d = scoreOf rest d := by
            simp [scoreOf, List.lookup, hbeq]
          rw [h1, h2, ih]

theorem isSome_accumEntry (d0 : String) (md : DocMetadata) (ts : ℝ) (mi : MatchInfo) :
    ∀ (l : List (String × DocScoreEntry)) (d : String),
      ((accumEntry d0 md ts mi l).lookup d).isSome
        ↔ (l.lookup d).isSome ∨ d = d0 := by
  intro l
  induction l with
  | nil =>
      intro d
      by_cases hd : d = d0
      · subst hd
        simp [accumEntry, List.lookup]
      · have hbeq : (d == d0) = false := beq_false_of_ne hd
        simp [accumEntry, List.lookup, hbeq, hd]
  | cons p rest ih =>
      intro d
      obtain ⟨k, v⟩ := p
      rw [accumEntry]
      by_cases hk : k = d0
      · rw [if_pos hk]
        by_cases hd : d = k
        · have hbeq : (d == k) = true := beq_iff_eq.mpr hd
          simp [List.lookup, hbeq]
        · have hbeq : (d == k) = false := beq_false_of_ne hd
          have hne : ¬ d = d0 := fun e => hd (e.trans hk.symm)
          simp [List.lookup, hbeq, hne]
      · rw [if_neg hk]
        by_cases hd : d = k
        · have hbeq : (d == k) = true := beq_iff_eq.mpr hd
          simp [List.lookup, hbeq]
        · have hbeq : (d == k) = false := beq_false_of_ne hd
          simp [List.lookup, hbeq, ih]

theorem fuzzyFold_scoreOf (dist : Nat) (d : String) :
    ∀ (ms : List Posting) (acc : List (String × DocScoreEntry)),
      scoreOf (ms.foldl (fun acc2 m =>
          accumEntry m.docId m.metadata
            ((m.weight : ℝ) * (1 / ((dist : ℝ) + 1)) * 0.5)
            { type := m.type, weight := m.weight, positions := m.positions,
              sectionIndex := m.sectionIndex, itemIndex := m.itemIndex,
              termScore := (m.weight : ℝ) * (1 / ((dist : ℝ) + 1)) * 0.5,
              fuzzy := true } acc2) acc) d
        = scoreOf acc d
          + ((ms.filter (fun m => m.docId == d)).map
              (fun m => (m.weight : ℝ) * (1 / ((dist : ℝ) + 1)) * 0.5)).sum := by
  intro ms
  induction ms with
  | nil => intro acc; simp
  | cons m ms ih =>
      intro acc
      rw [List.foldl_cons, ih, scoreOf_accumEntry]
      by_cases hd : d = m.docId
      · have hbeq : (m.docId == d) = true := beq_iff_eq.mpr hd.symm
        have hfc : (m :: ms).filter (fun x => x.docId == d)
            = m :: ms.filter (fun x => x.docId == d) := by
          simp [List.filter_cons, hbeq]
        rw [hfc, List.map_cons, List.sum_cons, if_pos hd]
        ring
      · have hbeq : (m.docId == d) = false := beq_false_of_ne (fun e => hd e.symm)
        have hfc : (m :: ms).filter (fun x => x.docId == d)
            = ms.filter (fun x => x.docId == d) := by
          simp [List.filter_cons, hbeq]
        rw [hfc, if_neg hd]
        ring

theorem fuzzyFold_isSome (dist : Nat) (d : String) :
    ∀ (ms : List Posting) (acc : List (String × DocScoreEntry)),
      ((ms.foldl (fun acc2 m =>
          accumEntry m.docId m.metadata
            ((m.weight : ℝ) * (1 / ((dist : ℝ) + 1)) * 0.5)
            { type := m.type, weight := m.weight, positions := m.positions,
              sectionIndex := m.sectionIndex, itemIndex := m.itemIndex,
              termScore := (m.weight : ℝ) * (1 / ((dist : ℝ) + 1)) * 0.5,
              fuzzy := true } acc2) acc).lookup d).isSome
        ↔ (acc.lookup d).isSome ∨ ∃ m ∈ ms, m.docId = d := by
  intro ms
  induction ms with
  | nil => intro acc; simp
  | cons m ms ih =>
      intro acc
      rw [List.foldl_cons, ih, isSome_accumEntry]
      constructor
      · rintro (⟨h | h⟩ | ⟨x, hx, hdx⟩)
        · exact Or.inl h
        · exact Or.inr ⟨m, List.mem_cons_self _ _, h.symm⟩
        · exact Or.inr ⟨x, List.mem_cons_of_mem _ hx, hdx⟩
      · rintro (h | ⟨x, hx, hdx⟩)
        · exact Or.inl (Or.inl h)
        · rcases List.mem_cons.mp hx with h2 | h2
          · subst h2
            exact Or.inl (Or.inr hdx.symm)
          · exact Or.inr ⟨x, h2, hdx⟩

theorem fuzzyScores_scoreOf (ql : String) (maxD : Nat) (d : String) :
    ∀ (l : List (String × List Posting)) (acc : List (String × DocScoreEntry)),
      scoreOf (l.foldl (fun a tm =>
          if levenshteinDistance ql tm.1 ≤ maxD ∧
              levenshteinDistance ql tm.1 < tm.1.length then
            tm.2.foldl (fun acc2 m =>
              accumEntry m.docId m.metadata
                ((m.weight : ℝ) * (1 / ((levenshteinDistance ql tm.1 : ℝ) + 1)) * 0.5)
                { type := m.type, weight := m.weight, positions := m.positions,
                  sectionIndex := m.sectionIndex, itemIndex := m.itemIndex,
                  termScore := (m.weight : ℝ) *
                    (1 / ((levenshteinDistance ql tm.1 : ℝ) + 1)) * 0.5,
                  fuzzy := true } acc2) a
          else a) acc) d
        = scoreOf acc d + (l.map (fun tm =>
            if levenshteinDistance ql tm.1 ≤ maxD ∧
                levenshteinDistance ql tm.1 < tm.1.length then
              ((tm.2.filter (fun m => m.docId == d)).map
                (fun m => (m.weight : ℝ) *
                  (1 / ((levenshteinDistance ql tm.1 : ℝ) + 1)) * 0.5)).sum
            else 0)).sum := by
  intro l
  induction l with
  | nil => intro acc; simp
  | cons tm l ih =>
      intro acc
      rw [List.foldl_cons, ih, List.map_cons, List.sum_cons]
      by_cases hacc : levenshteinDistance ql tm.1 ≤ maxD ∧
          levenshteinDistance ql tm.1 < tm.1.length
      · rw [if_pos hacc, if_pos hacc, fuzzyFold_scoreOf]
        ring
      · rw [if_neg hacc, if_neg hacc]
        ring

theorem fuzzyScores_isSome (ql : String) (maxD : Nat) (d : String) :
    ∀ (l : List (String × List Posting)) (acc : List (String × DocScoreEntry)),
      ((l.foldl (fun a tm =>
          if levenshteinDistance ql tm.1 ≤ maxD ∧
              levenshteinDistance ql tm.1 < tm.1.length then
            tm.2.foldl (fun acc2 m =>
              accumEntry m.docId m.metadata
                ((m.weight : ℝ) * (1 / ((levenshteinDistance ql tm.1 : ℝ) + 1)) * 0.5)
                { type := m.type, weight := m.weight, positions := m.positions,
                  sectionIndex := m.sectionIndex, itemIndex := m.itemIndex,
                  termScore := (m.weight : ℝ) *
                    (1 / ((levenshteinDistance ql tm.1 : ℝ) + 1)) * 0.5,
                  fuzzy := true } acc2) a
          else a) acc).lookup d).isSome
        ↔ (acc.lookup d).isSome ∨ ∃ tm ∈ l,
            (levenshteinDistance ql tm.1 ≤ maxD ∧
              levenshteinDistance ql tm.1 < tm.1.length) ∧ ∃ m ∈ tm.2, m.docId = d := by
  intro l
  induction l with
  | nil => intro acc; simp
  | cons tm l ih =>
      intro acc
      rw [List.foldl_cons, ih]
      by_cases hacc : levenshteinDistance ql tm.1 ≤ maxD ∧
          levenshteinDistance ql tm.1 < tm.1.length
      · rw [if_pos hacc, fuzzyFold_isSome]
        constructor
        · rintro (⟨h | ⟨m, hm, hdm⟩⟩ | ⟨x, hx, h1, m, hm, hdm⟩)
          · exact Or.inl h
          · exact Or.inr ⟨tm, List.mem_cons_self _ _, hacc, m, hm, hdm⟩
          · exact Or.inr ⟨x, List.mem_cons_of_mem _ hx, h1, m, hm, hdm⟩
        · rintro (h | ⟨x, hx, h1, m, hm, hdm⟩)
          · exact Or.inl (Or.inl h)
          · rcases List.mem_cons.mp hx with h2 | h2
            · subst h2
              exact Or.inl (Or.inr ⟨m, hm, hdm⟩)
            · exact Or.inr ⟨x, h2, h1, m, hm, hdm⟩
      · rw [if_neg hacc]
        constructor
        · rintro (h | ⟨x, hx, h1, m, hm, hdm⟩)
          · exact Or.inl h
          · exact Or.inr ⟨x, List.mem_cons_of_mem _ hx, h1, m, hm, hdm⟩
        · rintro (h | ⟨x, hx, h1, m, hm, hdm⟩)
          · exact Or.inl h
          · rcases List.mem_cons.mp hx with h2 | h2
            · subst h2
              exact absurd h1 hacc
            · exact Or.inr ⟨x, h2, h1, m, hm, hdm⟩

/-- Claim C6: in the fuzzy path, a vocabulary term contributes to the
`docScores` map exactly when its Levenshtein distance `dist` to the
lowercased query satisfies `dist ≤ maxDistance` and `dist < term.length`,
each posting of an accepted term adds `weight * (1 / (dist + 1)) * 0.5` to
its document's score, and (when the guards pass and exact search is empty)
`fuzzySearch` returns precisely these scores sorted and truncated. -/
theorem spec_C6 :
    (∀ (idx : List (String × List Posting)) (ql : String) (maxD : Nat) (d : String),
        (((fuzzyDocScores idx ql maxD).lookup d).isSome ↔
          ∃ tm ∈ idx,
            (levenshteinDistance ql tm.1 ≤ maxD ∧
              levenshteinDistance ql tm.1 < tm.1.length) ∧ ∃ m ∈ tm.2, m.docId = d) ∧
        scoreOf (fuzzyDocScores idx ql maxD) d
          = (idx.map (fun tm =>
              if levenshteinDistance ql tm.1 ≤ maxD ∧
                  levenshteinDistance ql tm.1 < tm.1.length then
                ((tm.2.filter (fun m => m.docId == d)).map
                  (fun m => (m.weight : ℝ) *
                    (1 / ((levenshteinDistance ql tm.1 : ℝ) + 1)) * 0.5)).sum
              else 0)).sum) ∧
    (∀ (st : SearchIndexState) (q : String) (mr md : Nat),
        st.isIndexed = true → (strTrim q).length ≠ 0 → search st q mr = [] →
        fuzzySearch st q mr md
          = (((fuzzyDocScores st.index (strToLower q) md).map
              Prod.snd).mergeSort scoreDesc).take mr) := by
  refine ⟨?_, ?_⟩
  · intro idx ql maxD d
    constructor
    · simp only [fuzzyDocScores]
      rw [fuzzyScores_isSome ql maxD d idx []]
      simp
    · simp only [fuzzyDocScores]
      rw [fuzzyScores_scoreOf ql maxD d idx []]
      simp [scoreOf, List.lookup]
  · intro st q mr md h1 h2 h3
    have hguard : ¬ (st.isIndexed = false ∨ (strTrim q).length = 0) := by
      rintro (h | h)
      · rw [h1] at h
        exact absurd h (by decide)
      · exact h2 h
    simp only [fuzzySearch]
    rw [if_neg hguard, h3, if_neg (by simp)]

theorem search_stBuilt_loops_nil : search stBuilt "loops" 50 = [] := by
  have h1 : ¬ (stBuilt.isIndexed = false ∨ (strTrim "loops").length = 0) := by decide
  have h2 : ¬ ((tokenize "loops").length = 0) := by decide
  simp only [search]
  rw [if_neg h1, if_neg h2]
  have h3 : (searchDocScores stBuilt (tokenize "loops")).map Prod.snd = [] := rfl
  rw [h3, List.mergeSort_nil, List.take_nil]

/-- Witness for C6: the query "loops" against the concrete one-document
index has no exact hit, "loop" is accepted at distance 1, and
`fuzzySearch` returns the fuzzy scores sorted and truncated. -/
theorem spec_C6_witness :
    (((fuzzyDocScores stBuilt.index (strToLower "loops") 2).lookup "d1").isSome ↔
      ∃ tm ∈ stBuilt.index,
        (levenshteinDistance (strToLower "loops") tm.1 ≤ 2 ∧
          levenshteinDistance (strToLower "loops") tm.1 < tm.1.length) ∧
        ∃ m ∈ tm.2, m.docId = "d1") ∧
    fuzzySearch stBuilt "loops" 50 2
      = (((fuzzyDocScores stBuilt.index (strToLower "loops") 2).map
          Prod.snd).mergeSort scoreDesc).take 50 :=
  ⟨(spec_C6.1 stBuilt.index (strToLower "loops") 2 "d1").1,
   spec_C6.2 stBuilt "loops" 50 2 rfl (by decide) search_stBuilt_loops_nil⟩

/-! ## Code bodies are indexed (claim C1) -/

/-- Claim C1 counterexample: indexing a document whose only payload is the
code body "foobar baz" produces a posting for the term "foobar" with field
type `code` (weight 2) — code bodies ARE indexed, contradicting the
claim. -/
theorem spec_C1_cex :
    indexGet (indexDocumentContent "d1" codeDoc exampleMeta []) "foobar"
      = [{ docId := "d1", type := "code", weight := 2, metadata := exampleMeta,
           positions := [0], count := 1, sectionIndex := some 0, itemIndex := none }] := by
  decide

theorem bumpTerm_lookup (term d ty : String) (w : Nat) (md : DocMetadata)
    (si ii : Option Nat) (pos : Nat) :
    ∀ (idx : List (String × List Posting)) (t : String),
      (bumpTerm term d ty w md si ii pos idx).lookup t
        = if t = term then (idx.lookup t).map (bumpList d ty w md si ii pos)
          else idx.lookup t := by
  intro idx
  induction idx with
  | nil =>
      intro t
      by_cases h : t = term <;> simp [bumpTerm, List.lookup, h]
  | cons e rest ih =>
      intro t
      obtain ⟨k, ps⟩ := e
      rw [bumpTerm]
      by_cases hk : k = term
      · rw [if_pos hk]
        by_cases ht : t = k
        · have hbeq : (t == k) = true := beq_iff_eq.mpr ht
          rw [if_pos (ht.trans hk)]
          simp [List.lookup, hbeq]
        · have hbeq : (t == k) = false := beq_false_of_ne ht
          by_cases htt : t = term
          · exact absurd (htt.trans hk.symm) ht
          · rw [if_neg htt]
            simp [List.lookup, hbeq]
      · rw [if_neg hk]
        by_cases ht : t = k
        · have hbeq : (t == k) = true := beq_iff_eq.mpr ht
          rw [if_neg (fun e => hk (ht.symm.trans e))]
          simp [List.lookup, hbeq]
        · have hbeq : (t == k) = false := beq_false_of_ne ht
          by_cases htt : t = term
          · rw [if_pos htt]
            have h2 := ih t
            rw [if_pos htt] at h2
            simp [List.lookup, hbeq, h2]
          · rw [if_neg htt]
            have h2 := ih t
            rw [if_neg htt] at h2
            simp [List.lookup, hbeq, h2]

theorem lookup_append_some {β : Type} :
    ∀ (idx l2 : List (String × β)) (t : String) (v : β),
      idx.lookup t = some v → (idx ++ l2).lookup t = some v := by
  intro idx
  induction idx with
  | nil => intro l2 t v h; simp [List.lookup] at h
  | cons e rest ih =>
      intro l2 t v h
      obtain ⟨k, w⟩ := e
      rw [List.cons_append, List.lookup]
      rw [List.lookup] at h
      by_cases ht : t = k
      · have hbeq : (t == k) = true := beq_iff_eq.mpr ht
        rw [hbeq] at h ⊢
        exact h
      · have hbeq : (t == k) = false := beq_false_of_ne ht
        rw [hbeq] at h ⊢
        exact ih l2 t v h

theorem lookup_append_none {β : Type} :
    ∀ (idx l2 : List (String × β)) (t : String),
      idx.lookup t = none → (idx ++ l2).lookup t = l2.lookup t := by
  intro idx
  induction idx with
  | nil => intro l2 t _; simp
  | cons e rest ih =>
      intro l2 t h
      obtain ⟨k, w⟩ := e
      rw [List.cons_append, List.lookup]
      rw [List.lookup] at h
      by_cases ht : t = k
      · have hbeq : (t == k) = true := beq_iff_eq.mpr ht
        rw [hbeq] at h
        simp at h
      · have hbeq : (t == k) = false := beq_false_of_ne ht
        rw [hbeq] at h ⊢
        exact ih l2 t h

theorem bumpList_creates (d ty : String) (w : Nat) (md : DocMetadata)
    (si ii : Option Nat) (pos : Nat) :
    ∀ ps : List Posting,
      ∃ q ∈ bumpList d ty w md si ii pos ps, keyOf q = (d, ty, si, ii) := by
  intro ps
  induction ps with
  | nil =>
      refine ⟨_, List.mem_singleton_self _, ?_⟩
      rfl
  | cons p ps ih =>
      by_cases hm : postingKeyMatches p d ty si ii
      · rw [bumpList, if_pos hm]
        refine ⟨_, List.mem_cons_self _ _, ?_⟩
        have hp := (postingKeyMatches_iff p d ty si ii).mp hm
        exact hp
      · rw [bumpList, if_neg hm]
        obtain ⟨q, hq, hqk⟩ := ih
        exact ⟨q, List.mem_cons_of_mem _ hq, hqk⟩

theorem bumpList_keeps (d ty : String) (w : Nat) (md : DocMetadata)
    (si ii : Option Nat) (pos : Nat) :
    ∀ (ps : List Posting) (p : Posting), p ∈ ps →
      ∃ q ∈ bumpList d ty w md si ii pos ps, keyOf q = keyOf p := by
  intro ps
  induction ps with
  | nil => intro p hp; simp at hp
  | cons p0 ps ih =>
      intro p hp
      by_cases hm : postingKeyMatches p0 d ty si ii
      · rw [bumpList, if_pos hm]
        rcases List.mem_cons.mp hp with h | h
        · subst h
          exact ⟨_, List.mem_cons_self _ _, rfl⟩
        · exact ⟨p, List.mem_cons_of_mem _ h, rfl⟩
      · rw [bumpList, if_neg hm]
        rcases List.mem_cons.mp hp with h | h
        · subst h
          exact ⟨p, List.mem_cons_self _ _, rfl⟩
        · obtain ⟨q, hq, hqk⟩ := ih p h
          exact ⟨q, List.mem_cons_of_mem _ hq, hqk⟩

theorem addToken_hasKey_present (d ty : String) (w : Nat) (md : DocMetadata)
    (si ii : Option Nat) (pos : Nat) (tok : String)
    (idx : List (String × List Posting)) (hlen : 2 ≤ tok.length) :
    hasKeyAt (addToken idx d ty w md si ii pos tok) (strToLower tok) (d, ty, si, ii) := by
  simp only [addToken]
  rw [if_neg (by omega)]
  by_cases hsome : (idx.lookup (strToLower tok)).isSome
  · rw [if_pos hsome]
    obtain ⟨ps, hps⟩ := Option.isSome_iff_exists.mp hsome
    rw [hasKeyAt, indexGet, bumpTerm_lookup, if_pos rfl, hps]
    exact bumpList_creates d ty w md si ii pos ps
  · rw [if_neg hsome]
    have hnone : idx.lookup (strToLower tok) = none := by
      cases h : idx.lookup (strToLower tok) with
      | none => rfl
      | some v => rw [h] at hsome; simp at hsome
    rw [hasKeyAt, indexGet, bumpTerm_lookup, if_pos rfl,
      lookup_append_none idx _ _ hnone]
    simp only [List.lookup, beq_self_eq_true, Option.map_some', Option.getD_some]
    exact bumpList_creates d ty w md si ii pos []

theorem addToken_hasKey_mono (d ty : String) (w : Nat) (md : DocMetadata)
    (si ii : Option Nat) (pos : Nat) (tok : String)
    (idx : List (String × List Posting)) (t : String)
    (k : String × String × Option Nat × Option Nat)
    (h : hasKeyAt idx t k) :
    hasKeyAt (addToken idx d ty w md si ii pos tok) t k := by
  obtain ⟨p, hp, hk⟩ := h
  rw [indexGet] at hp
  cases hl : idx.lookup t with
  | none => rw [hl] at hp; simp at hp
  | some ps =>
      rw [hl] at hp
      simp only [Option.getD_some] at hp
      simp only [addToken]
      by_cases hlen : tok.length < 2
      · rw [if_pos hlen]
        exact ⟨p, by rw [indexGet, hl]; exact hp, hk⟩
      · rw [if_neg hlen]
        by_cases hsome : (idx.lookup (strToLower tok)).isSome
        · rw [if_pos hsome]
          rw [hasKeyAt, indexGet, bumpTerm_lookup]
          by_cases ht : t = strToLower tok
          · rw [if_pos ht, hl]
            simp only [Option.map_some', Option.getD_some]
            obtain ⟨q, hq, hqk⟩ := bumpList_keeps d ty w md si ii pos ps p hp
            exact ⟨q, hq, hqk.trans hk⟩
          · rw [if_neg ht, hl]
            exact ⟨p, hp, hk⟩
        · rw [if_neg hsome]
          rw [hasKeyAt, indexGet, bumpTerm_lookup]
          by_cases ht : t = strToLower tok
          · rw [← ht] at hsome
            rw [hl] at hsome
            simp at hsome
          · rw [if_neg ht, lookup_append_some idx _ t ps hl]
            exact ⟨p, hp, hk⟩

theorem addTerm_hasKey_mono (d : String) (text : Option String) (ty : String)
    (w : Nat) (md : DocMetadata) (si ii : Option Nat)
    (idx : List (String × List Posting)) (t : String)
    (k : String × String × Option Nat × Option Nat)
    (h : hasKeyAt idx t k) :
    hasKeyAt (addTerm idx d text ty w md si ii) t k := by
  cases text with
  | none => exact h
  | some s =>
      rw [addTerm]
      exact foldl_preserves (fun ix => hasKeyAt ix t k) _
        (fun s2 a hs => addToken_hasKey_mono d ty w md si ii a.1 a.2 s2 t k hs)
        (tokenize s).enum idx h

theorem mem_enumFrom_of_mem {α : Type} :
    ∀ (l : List α) (x : α) (n : Nat), x ∈ l → ∃ i, (i, x) ∈ l.enumFrom n := by
  intro l
  induction l with
  | nil => intro x n h; simp at h
  | cons a l ih =>
      intro x n h
      rcases List.mem_cons.mp h with h2 | h2
      · subst h2
        exact ⟨n, List.mem_cons_self _ _⟩
      · obtain ⟨i, hi⟩ := ih x (n + 1) h2
        exact ⟨i, List.mem_cons_of_mem _ hi⟩

theorem addTerm_hasKey_present (d : String) (c : String) (ty : String) (w : Nat)
    (md : DocMetadata) (si ii : Option Nat) (idx : List (String × List Posting))
    (tok : String) (htok : tok ∈ tokenize c) (hlen : 2 ≤ tok.length) :
    hasKeyAt (addTerm idx d (some c) ty w md si ii) (strToLower tok) (d, ty, si, ii) := by
  rw [addTerm]
  obtain ⟨i, hi⟩ := mem_enumFrom_of_mem (tokenize c) tok 0 htok
  obtain ⟨l1, l2, hsplit⟩ := List.append_of_mem hi
  have henum : (tokenize c).enum = l1 ++ (i, tok) :: l2 := hsplit
  rw [henum, List.foldl_append, List.foldl_cons]
  exact foldl_preserves (fun ix => hasKeyAt ix (strToLower tok) (d, ty, si, ii)) _
    (fun s2 a hs => addToken_hasKey_mono d ty w md si ii a.1 a.2 s2 _ _ hs) l2 _
    (addToken_hasKey_present d ty w md si ii i tok _ hlen)

theorem applyAddTerm_hasKey_mono (op : AddTermOp) (idx : List (String × List Posting))
    (t : String) (k : String × String × Option Nat × Option Nat)
    (h : hasKeyAt idx t k) : hasKeyAt (applyAddTerm idx op) t k :=
  addTerm_hasKey_mono op.docId op.text op.type op.weight op.metadata
    op.sectionIndex op.itemIndex idx t k h

theorem applyOps_hasKey_present (ops : List AddTermOp) (op : AddTermOp)
    (hop : op ∈ ops) (c : String) (hc : op.text = some c) (tok : String)
    (htok : tok ∈ tokenize c) (hlen : 2 ≤ tok.length)
    (idx : List (String × List Posting)) :
    hasKeyAt (applyOps ops idx) (strToLower tok)
      (op.docId, op.type, op.sectionIndex, op.itemIndex) := by
  obtain ⟨l1, l2, hsplit⟩ := List.append_of_mem hop
  rw [applyOps, hsplit, List.foldl_append, List.foldl_cons]
  refine foldl_preserves
    (fun ix => hasKeyAt ix (strToLower tok)
      (op.docId, op.type, op.sectionIndex, op.itemIndex)) _
    (fun s2 a hs => applyAddTerm_hasKey_mono a s2 _ _ hs) l2 _ ?_
  have : applyAddTerm (List.foldl applyAddTerm idx l1) op
      = addTerm (List.foldl applyAddTerm idx l1) op.docId (some c) op.type
          op.weight op.metadata op.sectionIndex op.itemIndex := by
    rw [applyAddTerm, hc]
  rw [this]
  exact addTerm_hasKey_present op.docId c op.type op.weight op.metadata
    op.sectionIndex op.itemIndex _ tok htok hlen

theorem codeOp_mem_docContentOps (docId : String) (docData : DocData)
    (md : DocMetadata) (si : Nat) (sec : ContentSection)
    (hsec : (si, sec) ∈ ((docData.sections.orElse (fun _ => docData.content)).getD []).enum) :
    (⟨docId, sec.code, "code", 2, md, some si, none⟩ : AddTermOp)
      ∈ docContentOps docId docData md := by
  rw [docContentOps]
  apply List.mem_cons_of_mem
  apply List.mem_flatMap.mpr
  refine ⟨(si, sec), hsec, ?_⟩
  rw [sectionOps]
  apply List.mem_append_left
  apply List.mem_append_left
  simp

theorem foldl_preserves_mem {σ α : Type} (P : σ → Prop) (f : σ → α → σ) :
    ∀ l : List α, (∀ a ∈ l, ∀ s, P s → P (f s a)) →
      ∀ s : σ, P s → P (l.foldl f s) := by
  intro l
  induction l with
  | nil => intro _ s h; exact h
  | cons a l ih =>
      intro hf s h
      exact ih (fun x hx => hf x (List.mem_cons_of_mem _ hx)) _
        (hf a (List.mem_cons_self _ _) s h)

theorem bumpList_codeWeight2 (d ty : String) (w : Nat) (md : DocMetadata)
    (si ii : Option Nat) (pos : Nat) (hw : ty = "code" → w = 2) :
    ∀ ps : List Posting, (∀ p ∈ ps, p.type = "code" → p.weight = 2) →
      ∀ p ∈ bumpList d ty w md si ii pos ps, p.type = "code" → p.weight = 2 := by
  intro ps
  induction ps with
  | nil =>
      intro _ p hp
      rw [bumpList, List.mem_singleton] at hp
      subst hp
      exact hw
  | cons p0 ps ih =>
      intro hps p hp
      by_cases hm : postingKeyMatches p0 d ty si ii
      · rw [bumpList, if_pos hm] at hp
        rcases List.mem_cons.mp hp with h | h
        · subst h
          exact hps p0 (List.mem_cons_self _ _)
        · exact hps p (List.mem_cons_of_mem _ h)
      · rw [bumpList, if_neg hm] at hp
        rcases List.mem_cons.mp hp with h | h
        · subst h
          exact hps p (List.mem_cons_self _ _)
        · exact ih (fun x hx => hps x (List.mem_cons_of_mem _ hx)) p h

theorem bumpTerm_codeWeight2 (term d ty : String) (w : Nat) (md : DocMetadata)
    (si ii : Option Nat) (pos : Nat) (hw : ty = "code" → w = 2) :
    ∀ idx : List (String × List Posting), codeWeight2 idx →
      codeWeight2 (bumpTerm term d ty w md si ii pos idx) := by
  intro idx
  induction idx with
  | nil => intro h; exact h
  | cons e rest ih =>
      intro h
      obtain ⟨t, ps⟩ := e
      rw [bumpTerm]
      by_cases ht : t = term
      · rw [if_pos ht]
        intro e2 he2
        rcases List.mem_cons.mp he2 with h2 | h2
        · subst h2
          exact bumpList_codeWeight2 d ty w md si ii pos hw ps
            (h (t, ps) (List.mem_cons_self _ _))
        · exact h e2 (List.mem_cons_of_mem _ h2)
      · rw [if_neg ht]
        intro e2 he2
        rcases List.mem_cons.mp he2 with h2 | h2
        · subst h2
          exact h (t, ps) (List.mem_cons_self _ _)
        · exact ih (fun e3 he3 => h e3 (List.mem_cons_of_mem _ he3)) e2 h2

theorem addToken_codeWeight2 (d ty : String) (w : Nat) (md : DocMetadata)
    (si ii : Option Nat) (pos : Nat) (tok : String) (hw : ty = "code" → w = 2)
    (idx : List (String × List Posting)) (h : codeWeight2 idx) :
    codeWeight2 (addToken idx d ty w md si ii pos tok) := by
  simp only [addToken]
  by_cases hlen : tok.length < 2
  · rwa [if_pos hlen]
  · rw [if_neg hlen]
    apply bumpTerm_codeWeight2 _ _ _ _ _ _ _ _ hw
    by_cases hsome : (idx.lookup (strToLower tok)).isSome
    · rwa [if_pos hsome]
    · rw [if_neg hsome]
      intro e he
      rcases List.mem_append.mp he with h1 | h1
      · exact h e h1
      · rw [List.mem_singleton] at h1
        subst h1
        intro p hp
        simp at hp

theorem addTerm_codeWeight2 (d : String) (text : Option String) (ty : String)
    (w : Nat) (md : DocMetadata) (si ii : Option Nat) (hw : ty = "code" → w = 2)
    (idx : List (String × List Posting)) (h : codeWeight2 idx) :
    codeWeight2 (addTerm idx d text ty w md si ii) := by
  cases text with
  | none => exact h
  | some s =>
      rw [addTerm]
      exact foldl_preserves codeWeight2 _
        (fun ix pt hp => addToken_codeWeight2 d ty w md si ii pt.1 pt.2 hw ix hp)
        (tokenize s).enum idx h

theorem applyOps_codeWeight2 (ops : List AddTermOp)
    (hops : ∀ op ∈ ops, op.type = "code" → op.weight = 2)
    (idx : List (String × List Posting)) (h : codeWeight2 idx) :
    codeWeight2 (applyOps ops idx) := by
  rw [applyOps]
  exact foldl_preserves_mem codeWeight2 applyAddTerm ops
    (fun op hop s hs =>
      addTerm_codeWeight2 op.docId op.text op.type op.weight op.metadata
        op.sectionIndex op.itemIndex (hops op hop) s hs)
    idx h

theorem docContentOps_codeWeight (docId : String) (docData : DocData)
    (md : DocMetadata) :
    ∀ op ∈ docContentOps docId docData md, op.type = "code" → op.weight = 2 := by
  intro op hop hty
  rw [docContentOps] at hop
  rcases List.mem_cons.mp hop with h | h
  · subst h
    simp at hty
  · obtain ⟨⟨si, sec⟩, _, hop2⟩ := List.mem_flatMap.mp h
    rw [sectionOps] at hop2
    rcases List.mem_append.mp hop2 with h2 | h2
    · rcases List.mem_append.mp h2 with h3 | h3
      · simp only [List.mem_cons, List.mem_singleton] at h3
        rcases h3 with h4 | h4 | h4
        · subst h4; simp at hty
        · subst h4; simp at hty
        · rcases h4 with h5 | h5
          · subst h5; rfl
          · simp at h5
      · obtain ⟨⟨ti, tab⟩, _, h4⟩ := List.mem_flatMap.mp h3
        simp only [List.mem_cons, List.mem_singleton] at h4
        rcases h4 with h5 | h5
        · subst h5; rfl
        · rcases h5 with h6 | h6
          · subst h6; simp at hty
          · simp at h6
    · obtain ⟨⟨i2, item⟩, _, h4⟩ := List.mem_flatMap.mp h2
      cases item with
      | some s =>
          rw [List.mem_singleton] at h4
          subst h4
          simp at hty
      | none => simp at h4

/-- Claim C1 (amended): code bodies ARE indexed.  Every token (length ≥ 2)
of a content block's `code` payload yields a posting under field type
`code` for that block; the `addTerm` calls issued for code payloads (both
`section.code` and `tab.code`) always carry weight 2, and consequently
every posting with field type `code` has weight 2.  (Only tab labels are
additionally indexed as `code-label`, with weight 5.) -/
theorem spec_C1 :
    (∀ (docId : String) (docData : DocData) (md : DocMetadata)
        (idx : List (String × List Posting)) (si : Nat) (sec : ContentSection)
        (c tok : String),
        (si, sec) ∈ ((docData.sections.orElse (fun _ => docData.content)).getD []).enum →
        sec.code = some c → tok ∈ tokenize c → 2 ≤ tok.length →
        ∃ p ∈ indexGet (indexDocumentContent docId docData md idx) (strToLower tok),
          keyOf p = (docId, "code", some si, none)) ∧
    (∀ (docId : String) (docData : DocData) (md : DocMetadata),
        ∀ op ∈ docContentOps docId docData md, op.type = "code" → op.weight = 2) ∧
    (∀ ops : List AddTermOp, (∀ op ∈ ops, op.type = "code" → op.weight = 2) →
        ∀ (t : String) (p : Posting), p ∈ indexGet (applyOps ops []) t →
          p.type = "code" → p.weight = 2) := by
  refine ⟨?_, docContentOps_codeWeight, ?_⟩
  · intro docId docData md idx si sec c tok hsec hcode htok hlen
    have hop := codeOp_mem_docContentOps docId docData md si sec hsec
    exact applyOps_hasKey_present (docContentOps docId docData md)
      ⟨docId, sec.code, "code", 2, md, some si, none⟩ hop c hcode
      tok htok hlen idx
  · intro ops hops t p hp hty
    have hinv := applyOps_codeWeight2 ops hops [] (by intro e he; simp at he)
    rw [indexGet] at hp
    cases hl : (applyOps ops []).lookup t with
    | none => rw [hl] at hp; simp at hp
    | some ps =>
        rw [hl] at hp
        simp only [Option.getD_some] at hp
        exact hinv (t, ps) (lookup_mem _ t ps hl) p hp hty

/-- Witness for C1 at the concrete code-only document. -/
theorem spec_C1_witness :
    ∃ p ∈ indexGet (indexDocumentContent "d1" codeDoc exampleMeta [])
        (strToLower "foobar"),
      keyOf p = ("d1", "code", some 0, none) := by
  refine spec_C1.1 "d1" codeDoc exampleMeta [] 0
    { title := none, content := none, code := some "foobar baz",
      tabs := none, items := none } "foobar baz" "foobar" ?_ rfl ?_ ?_
  · decide
  · decide
  · decide
